import Mathlib

/-!
Verification development for the verdant markdown compressor
(src/main.rs).  Strings are modelled as lists of characters and Rust
byte lengths are modelled with explicit UTF-8 sizes.  Regex-based
transforms from the source are embedded as recursive character-list
functions that follow the semantics of the rust regex crate
(in particular: without the multiline flag, the anchors match only at
the start and the end of the whole haystack, and the dot does not
match a newline).
-/

abbrev Str := List Char

def str (s : String) : Str := s.toList

/-- Codepoints with the Unicode White_Space property, as accepted by the
Rust predicate char::is_whitespace (used by str::trim and by the regex
class for whitespace). -/
def isRustWhitespace (c : Char) : Bool :=
  c = ' ' || c = '\t' || c = '\n' || c = '\r' ||
  c.toNat = 0x0b || c.toNat = 0x0c || c.toNat = 0x85 || c.toNat = 0xa0 ||
  c.toNat = 0x1680 || (0x2000 ≤ c.toNat && c.toNat ≤ 0x200a) ||
  c.toNat = 0x2028 || c.toNat = 0x2029 || c.toNat = 0x202f ||
  c.toNat = 0x205f || c.toNat = 0x3000

/-- Rust str::trim_start. -/
def rustTrimStart (s : Str) : Str := s.dropWhile isRustWhitespace

/-- Rust str::trim_end. -/
def rustTrimEnd (s : Str) : Str := (s.reverse.dropWhile isRustWhitespace).reverse

/-- Rust str::trim. -/
def rustTrim (s : Str) : Str := rustTrimEnd (rustTrimStart s)

/-- Rust str::len: the UTF-8 byte length of the string. -/
def utf8Len (s : Str) : Nat := (s.map Char.utf8Size).sum

/-- Prepend a character to the first element of a list of lines
(creating a first line when there is none). -/
def consLine (c : Char) : List Str → List Str
  | [] => [[c]]
  | l :: ls => (c :: l) :: ls

/-- Rust str::split with separator newline: every newline separates two
(possibly empty) pieces, and the empty string yields one empty piece. -/
def splitNl : Str → List Str
  | [] => [[]]
  | '\n' :: rest => [] :: splitNl rest
  | c :: rest => consLine c (splitNl rest)

/-- Join with newline separators (Rust slice join with a newline). -/
def joinNl : List Str → Str
  | [] => []
  | [l] => l
  | l :: ls => l ++ '\n' :: joinNl ls

/-- Rust str::lines: pieces are terminated by a newline (a final piece
without newline is kept, a final empty piece is not produced), and one
carriage return directly before a terminating newline is stripped. -/
def rustLines : Str → List Str
  | [] => []
  | [c] => if c = '\n' then [[]] else [[c]]
  | c :: d :: rest =>
    if c = '\n' then [] :: rustLines (d :: rest)
    else if c = '\r' ∧ d = '\n' then [] :: rustLines rest
    else consLine c (rustLines (d :: rest))

/-! ## Deduplicator (src/main.rs, remove_duplicate_content) -/

/-- One document of remove_duplicate_content: walk the paragraphs
(split at newlines), keep a paragraph when its trimmed text has at most
30 bytes, or when it is long and its trimmed text was not seen before;
long paragraphs are added to the seen set when first kept.  Returns the
kept paragraphs, the new seen set and the number of removed
paragraphs. -/
def dedupParas (seen : List Str) : List Str → List Str × List Str × Nat
  | [] => ([], seen, 0)
  | p :: ps =>
    let t := rustTrim p
    if utf8Len t > 30 then
      if t ∈ seen then
        let r := dedupParas seen ps
        (r.1, r.2.1, r.2.2 + 1)
      else
        let r := dedupParas (t :: seen) ps
        (p :: r.1, r.2.1, r.2.2)
    else
      let r := dedupParas seen ps
      (p :: r.1, r.2.1, r.2.2)

/-- Fold of remove_duplicate_content over the file list, threading the
run-global seen set; every file is (name, content, path). -/
def remove_duplicate_content_go (seen : List Str) :
    List (Str × Str × Str) → List (Str × Str × Str) × Nat
  | [] => ([], 0)
  | (name, content, path) :: files =>
    let d := dedupParas seen (splitNl content)
    let rest := remove_duplicate_content_go d.2.1 files
    ((name, joinNl d.1, path) :: rest.1, d.2.2 + rest.2)

/-- src/main.rs lines 500-534: cross-document paragraph deduplication.
Returns the rewritten file list together with the number of removed
duplicate paragraphs (the printed duplicates_removed counter). -/
def remove_duplicate_content (files : List (Str × Str × Str)) :
    List (Str × Str × Str) × Nat :=
  remove_duplicate_content_go [] files

/-- Modelled from the words of the spec (section 4.1): a paragraph whose
trimmed text is longer than 30 bytes is deleted exactly when the trimmed
text of some earlier long paragraph (of any document processed so far,
the current one included) equals it; the seen set therefore records the
trimmed text of every long paragraph encountered, kept or not. -/
def dedupSpecParas (seen : List Str) : List Str → List Str × List Str
  | [] => ([], seen)
  | p :: ps =>
    let t := rustTrim p
    if utf8Len t > 30 then
      let r := dedupSpecParas (t :: seen) ps
      (if t ∈ seen then r.1 else p :: r.1, r.2)
    else
      let r := dedupSpecParas seen ps
      (p :: r.1, r.2)

/-- Spec-side deduplication over the file list. -/
def dedupSpecGo (seen : List Str) :
    List (Str × Str × Str) → List (Str × Str × Str)
  | [] => []
  | (name, content, path) :: files =>
    let d := dedupSpecParas seen (splitNl content)
    (name, joinNl d.1, path) :: dedupSpecGo d.2 files

/-- Spec-side deduplication pass (section 4.1 of the spec). -/
def dedupSpec (files : List (Str × Str × Str)) : List (Str × Str × Str) :=
  dedupSpecGo [] files

/-- src/main.rs lines 109-113: the deduplication pass runs only when the
compression level differs from low; the removed counter otherwise stays
zero. -/
def dedupPhase (level : Str) (files : List (Str × Str × Str)) :
    List (Str × Str × Str) × Nat :=
  if level ≠ str "low" then remove_duplicate_content files else (files, 0)

/-! ## TextNormalizer (src/main.rs, remove_excessive_whitespace and
remove_empty_lines) -/

/-- Replace every run of two or more consecutive occurrences of the
character a by a single occurrence: the replace_all of the regex
matching two-or-more repeats of a with a single a. -/
def collapsePair (a : Char) : Str → Str
  | [] => []
  | [c] => [c]
  | c :: d :: rest =>
    if c = a ∧ d = a then collapsePair a (d :: rest)
    else c :: collapsePair a (d :: rest)

/-- Delete every run of spaces standing directly before a newline: the
replace_all of the regex matching one-or-more spaces followed by a
newline, with a newline. -/
def dropSpacesBeforeNl : Str → Str
  | [] => []
  | c :: rest =>
    let r := dropSpacesBeforeNl rest
    if c = ' ' then
      match r with
      | '\n' :: _ => r
      | _ => c :: r
    else c :: r

/-- src/main.rs lines 536-546: collapse newline runs, collapse space
runs, then strip spaces standing before newlines, in this order. -/
def remove_excessive_whitespace (s : Str) : Str :=
  dropSpacesBeforeNl (collapsePair ' ' (collapsePair '\n' s))

/-- src/main.rs lines 548-553: drop every line that is empty after
trimming and rejoin the remaining lines with newlines. -/
def remove_empty_lines (s : Str) : Str :=
  joinNl ((rustLines s).filter (fun l => !(rustTrim l).isEmpty))

/-- The TextNormalizer stage of the spec (section 4.2 steps b and c), as
composed by compress_content (src/main.rs lines 413-414). -/
def textNormalize (s : Str) : Str :=
  remove_empty_lines (remove_excessive_whitespace s)

/-- Adjacent-pair exclusion: no character equal to a is directly
followed by a character equal to b. -/
abbrev NoPair (a b : Char) (s : Str) : Prop :=
  List.Chain' (fun c d => ¬(c = a ∧ d = b)) s

/-- Every line except the final one avoids a trailing space. -/
def properLines : List Str → Prop
  | [] => True
  | [_] => True
  | l :: l2 :: rest => l.getLast? ≠ some ' ' ∧ properLines (l2 :: rest)

/-! ## StructuralCompressor: header compaction
(src/main.rs, compress_headers_aggressively) -/

/-- A run of hash marks. -/
def hashes : Nat → Str
  | 0 => []
  | n + 1 => '#' :: hashes n

/-- Whole-haystack match of one anchored header regex: the pattern is
anchored at the start and end of the haystack (the source compiles the
regexes without the multiline flag, so the anchors do not match at line
boundaries), and the dot excludes newlines; hence the haystack must be
exactly k hash marks, a space, and one or more non-newline characters. -/
def matchHeaderLevel (k : Nat) (s : Str) : Option Str :=
  if (hashes k ++ [' ']).isPrefixOf s then
    if s.drop (k + 1) ≠ [] ∧ '\n' ∉ s.drop (k + 1) then some (s.drop (k + 1))
    else none
  else none

/-- The literal replacement text of the header regex for level k. -/
def headerMark : Nat → Str
  | 1 => str "H1:"
  | 2 => str "H2:"
  | 3 => str "H3:"
  | 4 => str "H4:"
  | _ => []

/-- replace_all of one anchored header regex: because the pattern is
anchored at both ends, the only possible match is the whole haystack. -/
def replaceHeaderLevel (k : Nat) (s : Str) : Str :=
  match matchHeaderLevel k s with
  | some txt => headerMark k ++ txt
  | none => s

/-- src/main.rs lines 555-568: the four header regexes applied in the
order level 1, 2, 3, 4. -/
def compress_headers_aggressively (s : Str) : Str :=
  replaceHeaderLevel 4 (replaceHeaderLevel 3 (replaceHeaderLevel 2 (replaceHeaderLevel 1 s)))

/-! ## Substring occurrence and code-fence scanning -/

/-- Some occurrence of pat as a contiguous substring of s. -/
def occurs (pat : Str) : Str → Bool
  | [] => pat.isPrefixOf []
  | s@(_ :: rest) => pat.isPrefixOf s || occurs pat rest

/-- Rust regex word character (ASCII approximation of the Unicode word
class used by the regex crate). -/
def isWordChar (c : Char) : Bool := c.isAlphanum || c = '_'

/-- Replace every occurrence of the character c by the string rep
(Rust str::replace with a one-character pattern). -/
def replaceCharWith (c : Char) (rep : Str) (s : Str) : Str :=
  s.flatMap (fun d => if d = c then rep else [d])

/-- Uppercase map (ASCII approximation of Rust str::to_uppercase). -/
def toUpperStr (s : Str) : Str := s.map Char.toUpper

/-- Lowercase map (ASCII approximation of Rust str::to_lowercase). -/
def toLowerStr (s : Str) : Str := s.map Char.toLower

/-- The code-fence triple backtick. -/
def fence : Str := str "\x60\x60\x60"

/-- Split at the first occurrence of the closing fence: the text before
it and the text after it (the lazy body of the code-block regex). -/
def findClose : Str → Option (Str × Str)
  | [] => none
  | c :: rest =>
    if fence.isPrefixOf (c :: rest) then some ([], (c :: rest).drop 3)
    else
      match findClose rest with
      | some (body, after) => some (c :: body, after)
      | none => none

/-- Attempt the code-block regex match at the current position: a triple
backtick, an optional greedy run of word characters, a newline, then the
lazy body up to the next triple backtick.  Greedy and lazy parts are
deterministic here because word characters, the newline and the backtick
are pairwise exclusive. -/
def tryFence (s : Str) : Option (Str × Str × Str) :=
  if fence.isPrefixOf s ∧ ((s.drop 3).dropWhile isWordChar).head? = some '\n' then
    match findClose ((s.drop 3).dropWhile isWordChar).tail with
    | some (body, after) => some ((s.drop 3).takeWhile isWordChar, body, after)
    | none => none
  else none

/-- The replacement produced by compress_code_blocks for one matched
block (src/main.rs lines 586-611). -/
def codeBlockRepl (model : Str) (lang body : Str) : Str :=
  if model = str "copilot" then
    if lang.isEmpty then
      str "CODE:" ++ replaceCharWith '\n' (str " | ")
        (joinNl ((rustLines body).filter (fun l => !(rustTrim l).isEmpty)))
    else
      toUpperStr lang ++ str ":" ++ replaceCharWith '\n' (str " | ")
        (joinNl ((rustLines body).filter (fun l => !(rustTrim l).isEmpty)))
  else
    if lang.isEmpty then
      str "CODE:" ++ replaceCharWith '\n' (str "|")
        (joinNl ((rustLines body).filter (fun l => !(rustTrim l).isEmpty)))
    else
      str "CODE(" ++ lang ++ str "):" ++ replaceCharWith '\n' (str "|")
        (joinNl ((rustLines body).filter (fun l => !(rustTrim l).isEmpty)))

/-- Fueled left-to-right scanner implementing replace_all of the
code-block regex: try a match at every position; on a match emit the
replacement and continue after the closing fence. -/
def compress_code_blocks_go (model : Str) : Nat → Str → Str
  | _, [] => []
  | 0, s => s
  | f + 1, c :: rest =>
    match tryFence (c :: rest) with
    | some (lang, body, after) =>
      codeBlockRepl model lang body ++ compress_code_blocks_go model f after
    | none => c :: compress_code_blocks_go model f rest

/-- src/main.rs lines 583-613: replace every fenced code block. -/
def compress_code_blocks (s : Str) (model : Str) : Str :=
  compress_code_blocks_go model s.length s

/-! ## TagExtractor (src/main.rs, extract_enhanced_tags_from_content) -/

/-- The four fixed lexicons of src/main.rs lines 1219-1247 in scan
order: frameworks, languages, technologies, concepts; each entry is a
match substring paired with its canonical tag. -/
def tagLexicon : List (Str × Str) := [
  (str "react", str "react"), (str "vue", str "vue"),
  (str "angular", str "angular"), (str "express", str "express"),
  (str "fastapi", str "fastapi"), (str "django", str "django"),
  (str "flask", str "flask"), (str "spring", str "spring"),
  (str "rails", str "rails"), (str "nextjs", str "nextjs"),
  (str "javascript", str "js"), (str "typescript", str "ts"),
  (str "python", str "python"), (str "rust", str "rust"),
  (str "go", str "go"), (str "java", str "java"),
  (str "c++", str "cpp"), (str "c#", str "csharp"),
  (str "php", str "php"), (str "ruby", str "ruby"),
  (str "docker", str "docker"), (str "kubernetes", str "k8s"),
  (str "aws", str "aws"), (str "azure", str "azure"),
  (str "gcp", str "gcp"), (str "redis", str "redis"),
  (str "postgresql", str "postgres"), (str "mysql", str "mysql"),
  (str "mongodb", str "mongo"), (str "elasticsearch", str "elastic"),
  (str "authentication", str "auth"), (str "authorization", str "authz"),
  (str "security", str "security"), (str "testing", str "testing"),
  (str "deployment", str "deploy"), (str "monitoring", str "monitoring"),
  (str "logging", str "logging"), (str "caching", str "cache"),
  (str "scaling", str "scale"), (str "performance", str "perf")]

/-- Scan-order collection of the matched canonical tags with set
semantics: the HashSet of the source is modelled as an ordered list
without duplicates (the iteration order of the set is irrelevant because
the result is sorted afterwards). -/
def collectTags (lower : Str) : List Str :=
  tagLexicon.foldl
    (fun acc pt =>
      if occurs pt.1 lower then (if pt.2 ∈ acc then acc else acc ++ [pt.2]) else acc)
    []

/-- src/main.rs lines 1214-1262: substring scan of the lowercased
content against the lexicons, set collection, lexicographic sort,
truncation to 5 after sorting. -/
def extract_enhanced_tags_from_content (content : Str) : List Str :=
  (List.insertionSort (fun a b : Str => a ≤ b)
    (collectTags (toLowerStr content))).take 5

/-- A document matching exactly 8 lexicon entries with 8 distinct
canonical tags. -/
def tagDemoContent : Str := str "react vue angular express fastapi flask spring rails"

/-! ## String replacement and decimal formatting -/

/-- Fueled scanner for Rust str::replace with a nonempty pattern:
leftmost non-overlapping occurrences of pat are replaced by rep. -/
def replaceAllGo (pat rep : Str) : Nat → Str → Str
  | _, [] => []
  | 0, s => s
  | f + 1, c :: rest =>
    if pat ≠ [] ∧ pat.isPrefixOf (c :: rest) then
      rep ++ replaceAllGo pat rep f ((c :: rest).drop pat.length)
    else
      c :: replaceAllGo pat rep f rest

/-- Rust str::replace (for the nonempty patterns used by the source). -/
def replaceAll (pat rep s : Str) : Str := replaceAllGo pat rep s.length s

/-- Decimal digit accumulation for natChars. -/
def natCharsAux : Nat → Nat → Str → Str
  | 0, _, acc => acc
  | _ + 1, 0, acc => acc
  | f + 1, n, acc => natCharsAux f (n / 10) (Char.ofNat (48 + n % 10) :: acc)

/-- Decimal digits of a natural number, as Rust display formatting. -/
def natChars (n : Nat) : Str :=
  if n = 0 then ['0'] else natCharsAux n n []

/-! ## ChunkSplitter (src/main.rs, create_chunks and
update_vrd_chunk_header) -/

/-- The CHUNKS token of the VRD header for chunk i of n. -/
def chunksToken (i n : Nat) : Str :=
  str "CHUNKS:" ++ (natChars i ++ '/' :: natChars n)

/-- The next-chunk file name used by update_vrd_chunk_header
(src/main.rs lines 1129-1133); chunk_num is the 1-based current chunk
number. -/
def vrdNextName (output : Str) (chunk_num : Nat) : Str :=
  if occurs (str "chunk") output then
    output ++ ('_' :: (natChars (chunk_num + 1) ++ str ".vrd"))
  else
    output ++ (str "_chunk_" ++ (natChars (chunk_num + 1) ++ str ".vrd"))

/-- src/main.rs lines 1120-1143: rewrite the CHUNKS:1/1 token of the
chunk content to CHUNKS:i/n, and when not the last chunk append the
NEXT reference by replacing the rewritten token with itself plus the
suffix. -/
def update_vrd_chunk_header (content : Str) (chunk_num total_chunks : Nat)
    (output : Str) : Str :=
  if chunk_num < total_chunks then
    replaceAll (chunksToken chunk_num total_chunks)
      (chunksToken chunk_num total_chunks ++
        (str "|NEXT:" ++ vrdNextName output chunk_num))
      (replaceAll (chunksToken 1 1) (chunksToken chunk_num total_chunks) content)
  else
    replaceAll (chunksToken 1 1) (chunksToken chunk_num total_chunks) content

/-- The next-chunk file name of the markdown branch of create_chunks
(src/main.rs lines 353-357); chunk_num is the 0-based loop index. -/
def mdNextName (output : Str) (chunk_num : Nat) : Str :=
  if occurs (str "chunk") output then
    output ++ ('_' :: (natChars (chunk_num + 2) ++ str ".md"))
  else
    output ++ (str "_chunk_" ++ (natChars (chunk_num + 2) ++ str ".md"))

/-- One markdown chunk payload of create_chunks (src/main.rs lines
350-364): the CHUNK header line with its optional NEXT pointer, the
chunk lines, and the footer whose token estimate divides the byte
length of the content built so far by 4. -/
def mdChunkContent (chunkLines : List Str) (chunk_num total_chunks : Nat)
    (output : Str) : Str :=
  (str "CHUNK:" ++ (natChars (chunk_num + 1) ++ '/' :: natChars total_chunks) ++
      (if chunk_num + 1 < total_chunks then str " | NEXT:" ++ mdNextName output chunk_num
       else []) ++ '\n' :: joinNl chunkLines) ++
    (str "\n---\nCHUNK_END | Lines:" ++ (natChars chunkLines.length ++
      (str " | Est.tokens:" ++ natChars (utf8Len
        (str "CHUNK:" ++ (natChars (chunk_num + 1) ++ '/' :: natChars total_chunks) ++
          (if chunk_num + 1 < total_chunks then str " | NEXT:" ++ mdNextName output chunk_num
           else []) ++ '\n' :: joinNl chunkLines) / 4))))

/-- src/main.rs lines 329-385: split the payload into line windows of
the configured budget and build every chunk payload in order (the file
writes themselves are external output). -/
def create_chunks (content : Str) (maxLines : Nat) (isVrd : Bool)
    (output : Str) : List Str :=
  (List.range (((rustLines content).length + maxLines - 1) / maxLines)).map
    (fun chunk_num =>
      if isVrd then
        update_vrd_chunk_header
          (joinNl (((rustLines content).drop (chunk_num * maxLines)).take maxLines))
          (chunk_num + 1) (((rustLines content).length + maxLines - 1) / maxLines)
          output
      else
        mdChunkContent (((rustLines content).drop (chunk_num * maxLines)).take maxLines)
          chunk_num (((rustLines content).length + maxLines - 1) / maxLines) output)

/-! ## Concrete inputs used by the deduplication claims -/

/-- Document A of the spec order-sensitivity example. -/
def dedupDocA : Str × Str × Str :=
  (str "a.md", str "X\nsame-paragraph-over-30-chars-long-text", str "a.md")

/-- Document B of the spec order-sensitivity example. -/
def dedupDocB : Str × Str × Str :=
  (str "b.md", str "same-paragraph-over-30-chars-long-text", str "b.md")

/-- A paragraph of 11 euro signs: 11 characters but 33 UTF-8 bytes. -/
def euroPara : Str := List.replicate 11 '€'

/-- Two documents both consisting of the euro paragraph. -/
def euroFiles : List (Str × Str × Str) :=
  [(str "a.md", euroPara, str "a.md"), (str "b.md", euroPara, str "b.md")]

/-- Two documents sharing one long paragraph. -/
def dupDemoFiles : List (Str × Str × Str) := [dedupDocB, dedupDocB]

/-- The VRD header line up to its CHUNKS token, for the default target
claude at level medium (src/main.rs lines 1149-1153). -/
def vrdHeadPre : Str := str "VRD1.0|TARGET:CLAUDE|MODE:MEDIUM|"

/-- A two-line VRD payload: the default header line and one body line. -/
def vrdDemoPayload : Str := str "VRD1.0|TARGET:CLAUDE|MODE:MEDIUM|CHUNKS:1/1\nx"

/-! ## Regex rewrite engines shared by the markdown and VRD pipelines

All replace_all rewrites of src/main.rs are leftmost and non-overlapping,
and the text of a replacement is not rescanned; the scanners below follow
that discipline.  Case folding for the (?i) patterns is ASCII (every
pattern in the source is ASCII), \s is modelled by the same Unicode
whitespace predicate as str::trim, and \w and \d by their ASCII cores. -/

/-- Case-insensitive literal prefix test (ASCII folding). -/
def ciPre (pat s : Str) : Bool :=
  toLowerStr (s.take pat.length) == toLowerStr pat

/-- Word-character test of an optional character; the absent character at
either end of the haystack counts as a non-word character. -/
def isWordOpt (c : Option Char) : Bool :=
  match c with
  | some c => isWordChar c
  | none => false

/-- Regex \b: a word boundary sits between two positions exactly when one
holds a word character and the other does not. -/
def atBoundary (a b : Option Char) : Bool := isWordOpt a != isWordOpt b

/-- Fueled leftmost scanner: m receives the preceding character of the
original haystack (none at the start) and the remaining text, and returns
the matched length (always positive for the matchers below) and the
replacement; on a match the scan resumes after the matched span. -/
def scanRewrite (m : Option Char → Str → Option (Nat × Str)) :
    Nat → Option Char → Str → Str
  | 0, _, s => s
  | _ + 1, _, [] => []
  | f + 1, prev, c :: rest =>
    match m prev (c :: rest) with
    | some (n, rep) =>
        rep ++ scanRewrite m f (((c :: rest).take n).getLast?) ((c :: rest).drop n)
    | none => c :: scanRewrite m f (some c) rest

/-- Run a matcher over a whole haystack (regex replace_all). -/
def rewriteAll (m : Option Char → Str → Option (Nat × Str)) (s : Str) : Str :=
  scanRewrite m s.length none s

/-- Matcher for an alternation of literal words framed by \b, optionally
case-insensitive; bEnd switches the trailing \b on or off.  Alternatives
are tried in the order the source lists them. -/
def wbAlt (ci bEnd : Bool) (pats : List Str) (rep : Str)
    (prev : Option Char) (s : Str) : Option (Nat × Str) :=
  pats.findSome? (fun pat =>
    if atBoundary prev pat.head? ∧
        (if ci then ciPre pat s else pat.isPrefixOf s) ∧
        (!bEnd || atBoundary pat.getLast? ((s.drop pat.length).head?)) then
      some (pat.length, rep)
    else none)

/-- Matcher for a bare case-insensitive literal (no word boundaries). -/
def ciLit (pat rep : Str) (_prev : Option Char) (s : Str) : Option (Nat × Str) :=
  if ciPre pat s then some (pat.length, rep) else none

/-- Matcher for \b<word>\s+ deleted to nothing (the filler-word regexes);
the greedy \s+ run needs no backtracking because the literal ends in a
word character and whitespace is disjoint from every continuation. -/
def fillerMatch (ci : Bool) (pat : Str) (prev : Option Char) (s : Str) :
    Option (Nat × Str) :=
  if atBoundary prev pat.head? ∧ (if ci then ciPre pat s else pat.isPrefixOf s) then
    let run := (s.drop pat.length).takeWhile isRustWhitespace
    if run = [] then none else some (pat.length + run.length, [])
  else none

/-- Matcher for \b(a|an|the)\s+ (article removal): regex alternation
backtracks across the alternatives, so each one is tried with its \s+
continuation in order. -/
def articleMatch (prev : Option Char) (s : Str) : Option (Nat × Str) :=
  [str "a", str "an", str "the"].findSome? (fun pat =>
    if atBoundary prev pat.head? ∧ pat.isPrefixOf s then
      let run := (s.drop pat.length).takeWhile isRustWhitespace
      if run = [] then none else some (pat.length + run.length, [])
    else none)

/-- src/main.rs lines 222-244: the eight emoji character classes, each
replaced by the empty string; together they delete every character of the
eight ranges. -/
def isEmojiChar (c : Char) : Bool :=
  (0x1F600 ≤ c.toNat ∧ c.toNat ≤ 0x1F64F) ∨
  (0x1F300 ≤ c.toNat ∧ c.toNat ≤ 0x1F5FF) ∨
  (0x1F680 ≤ c.toNat ∧ c.toNat ≤ 0x1F6FF) ∨
  (0x1F1E0 ≤ c.toNat ∧ c.toNat ≤ 0x1F1FF) ∨
  (0x2600 ≤ c.toNat ∧ c.toNat ≤ 0x26FF) ∨
  (0x2700 ≤ c.toNat ∧ c.toNat ≤ 0x27BF) ∨
  (0x1F900 ≤ c.toNat ∧ c.toNat ≤ 0x1F9FF) ∨
  (0x1FA70 ≤ c.toNat ∧ c.toNat ≤ 0x1FAFF)

/-- src/main.rs lines 222-244 (remove_emojis). -/
def remove_emojis (content : Str) : Str := content.filter (fun c => !isEmojiChar c)

/-- Join a list of strings with a separator between consecutive elements
(the push-with-separator loops of the source). -/
def joinSep (sep : Str) : List Str → Str
  | [] => []
  | [x] => x
  | x :: y :: t => x ++ sep ++ joinSep sep (y :: t)

/-! ## Markdown pipeline (compress_content and its helpers) -/

/-- src/main.rs lines 306-325 (create_abbreviation_dictionary): the ten
(full word, abbreviation) pairs, emitted as ABBREV=full. -/
def md_abbreviations : List (Str × Str) := [
  (str "function", str "FN"), (str "parameter", str "PARAM"),
  (str "documentation", str "DOC"), (str "example", str "EX"),
  (str "installation", str "INST"), (str "configuration", str "CFG"),
  (str "authentication", str "AUTH"), (str "database", str "DB"),
  (str "middleware", str "MW"), (str "component", str "COMP")]

/-- src/main.rs lines 306-325. -/
def create_abbreviation_dictionary : Str :=
  str "DICT:\x7b" ++
    joinSep (str ",") (md_abbreviations.map (fun p => p.2 ++ '=' :: p.1)) ++
  str "\x7d\n"

/-- src/main.rs lines 287-304 (create_model_header). -/
def create_model_header (model : Str) (ai_mode : Bool) : Str :=
  let h := str "TARGET:" ++ toUpperStr model ++ ['\n']
  let h := if ai_mode then h ++ str "MODE:AI_OPTIMIZED\n" ++ create_abbreviation_dictionary
    else h
  let h :=
    if model = str "claude" then h ++ str "NOTE:Structured data with technical notation\n"
    else if model = str "gpt" then h ++ str "NOTE:Consistent formatting with explicit context\n"
    else if model = str "copilot" then h ++ str "NOTE:Code-focused with file-type hints\n"
    else h
  h ++ str "---\n"

/-- src/main.rs lines 570-581 (compress_formatting): each of the three
rewrites replaces a match by its own text (bold by bold, italic by
italic, inline code by inline code), so the composite is the identity. -/
def compress_formatting (content : Str) : Str := content

/-- src/main.rs lines 615-618 (compress_lists_aggressively): the regex
for a bullet line carries ^ and $ but no multiline flag, so it matches
only when the single bullet line is the whole haystack. -/
def compress_lists_aggressively (content : Str) : Str :=
  match content with
  | b :: ' ' :: t =>
    if (b = '*' ∨ b = '-') ∧ t ≠ [] ∧ !t.contains '\n' then '•' :: t else content
  | _ => content

/-- src/main.rs lines 620-634 (remove_fluff_words): five case-insensitive
alternations of phrases framed by \b. -/
def remove_fluff_words (content : Str) : Str :=
  let r := rewriteAll (wbAlt true true
    [str "please note that", str "it should be noted that",
     str "it is important to note that"] []) content
  let r := rewriteAll (wbAlt true true
    [str "as mentioned above", str "as mentioned earlier", str "as we can see"] []) r
  let r := rewriteAll (wbAlt true true
    [str "in order to", str "for the purpose of"] (str "to")) r
  let r := rewriteAll (wbAlt true true [str "due to the fact that"] (str "because")) r
  rewriteAll (wbAlt true true [str "at this point in time"] (str "now")) r

/-- src/main.rs lines 636-639 (compress_sentences): the connector
alternation, in source order. -/
def connectorAlts : List Str :=
  [str "however", str "therefore", str "furthermore", str "moreover",
   str "additionally"]

/-- Matcher for (?i)\b(connector),?\s*: the optional comma is taken when
present and the possibly-empty whitespace run follows greedily. -/
def connectorMatch (prev : Option Char) (s : Str) : Option (Nat × Str) :=
  connectorAlts.findSome? (fun pat =>
    if atBoundary prev pat.head? ∧ ciPre pat s then
      let rest := s.drop pat.length
      let k := if rest.head? = some ',' then 1 else 0
      some (pat.length + k + ((rest.drop k).takeWhile isRustWhitespace).length, [])
    else none)

/-- src/main.rs lines 636-639. -/
def compress_sentences (content : Str) : Str := rewriteAll connectorMatch content

/-- src/main.rs lines 641-654 (remove_redundant_phrases): four
case-insensitive \b<word>\s+ deletions. -/
def remove_redundant_phrases (content : Str) : Str :=
  [str "very", str "really", str "quite", str "basically"].foldl
    (fun acc w => rewriteAll (fillerMatch true w) acc) content

/-- src/main.rs lines 444-470 (apply_extreme_ai_compression): article
removal followed by ten case-sensitive \b-framed term abbreviations. -/
def apply_extreme_ai_compression (content : Str) : Str :=
  let r := rewriteAll articleMatch content
  [(str "function", str "FN"), (str "parameter", str "PARAM"),
   (str "documentation", str "DOC"), (str "example", str "EX"),
   (str "installation", str "INST"), (str "configuration", str "CFG"),
   (str "authentication", str "AUTH"), (str "database", str "DB"),
   (str "returns", str "→"), (str "therefore", str "∴")].foldl
    (fun acc p => rewriteAll (wbAlt false true [p.1] p.2) acc) r

/-- Matcher for the gpt section regex H(\d):(.+), unanchored; the greedy
(.+) runs to the end of the line, and the \d class is matched by its
ASCII core. -/
def gptSectionMatch (_prev : Option Char) (s : Str) : Option (Nat × Str) :=
  match s with
  | 'H' :: d :: ':' :: t =>
    if d.isDigit then
      let r := t.takeWhile (fun c => c ≠ '\n')
      if r = [] then none
      else some (3 + r.length, str "SECTION_L" ++ d :: ':' :: r)
    else none
  | _ => none

/-- src/main.rs lines 494-498 (prioritize_code_content): the source
returns its input unchanged. -/
def prioritize_code_content (content : Str) : Str := content

/-- src/main.rs lines 472-492 (apply_model_optimizations). -/
def apply_model_optimizations (content : Str) (model : Str) : Str :=
  if model = str "copilot" then prioritize_code_content content
  else if model = str "gpt" then rewriteAll gptSectionMatch content
  else content

/-- src/main.rs lines 404-441 (compress_content). -/
def compress_content (content level model : Str) (ai_mode no_emojis : Bool) : Str :=
  let c := if no_emojis then remove_emojis content else content
  let c := remove_excessive_whitespace c
  let c := remove_empty_lines c
  let c := compress_headers_aggressively c
  let c := compress_formatting c
  let c :=
    if level = str "medium" ∨ level = str "high" ∨ level = str "extreme" then
      remove_fluff_words (compress_lists_aggressively (compress_code_blocks c model))
    else c
  let c :=
    if level = str "high" ∨ level = str "extreme" then
      remove_redundant_phrases (compress_sentences c)
    else c
  let c :=
    if level = str "extreme" ∨ ai_mode then apply_extreme_ai_compression c else c
  apply_model_optimizations c model

/-! ## VRD pipeline (generate_vrd_content and its helpers) -/

/-- src/main.rs lines 854-876 (extract_headers_for_vrd). -/
def extract_headers_for_vrd (content : Str) (no_emojis : Bool) : List Str :=
  (rustLines content).filterMap (fun line =>
    let trimmed := rustTrim line
    if trimmed.head? = some '#' then
      let t := rustTrim (trimmed.dropWhile (fun c => c = '#'))
      some (if no_emojis then remove_emojis t else t)
    else none)

/-- src/main.rs lines 893-917: the per-line literal replacements of
compress_code_for_vrd, applied to the trimmed line. -/
def vrd_code_line (line : Str) : Str :=
  let l := rustTrim line
  let l := replaceAll (str " => ") (str "→") l
  let l := replaceAll (str " -> ") (str "→") l
  let l := replaceAll (str "return ") (str "→") l
  let l := replaceAll (str "async function ") (str "async FN ") l
  let l := replaceAll (str "function ") (str "FN ") l
  let l := replaceAll (str "const ") [] l
  let l := replaceAll (str "let ") [] l
  let l := replaceAll (str "var ") [] l
  let l := replaceAll (str "( ") (str "(") l
  let l := replaceAll (str " )") (str ")") l
  let l := replaceAll (str "\x7b ") (str "\x7b") l
  replaceAll (str " \x7d") (str "\x7d") l

/-- src/main.rs lines 893-917 (compress_code_for_vrd): non-blank lines,
each trimmed and rewritten, joined by the arrow. -/
def compress_code_for_vrd (code : Str) (_lang : Str) : Str :=
  joinSep (str "→")
    (((rustLines code).filter (fun l => !(rustTrim l).isEmpty)).map vrd_code_line)

/-- Fueled scanner of the captures_iter loop of
extract_and_compress_code_blocks: the code-block regex of the VRD side is
the same one compress_code_blocks matches (optional word-run language tag,
newline, lazy body up to the closing fence). -/
def collect_code_blocks_go : Nat → Str → List Str
  | 0, _ => []
  | _ + 1, [] => []
  | f + 1, c :: rest =>
    match tryFence (c :: rest) with
    | some (lang, body, after) =>
        compress_code_for_vrd body lang :: collect_code_blocks_go f after
    | none => collect_code_blocks_go f rest

/-- src/main.rs lines 878-891 (extract_and_compress_code_blocks). -/
def extract_and_compress_code_blocks (content : Str) : List Str :=
  collect_code_blocks_go content.length content

/-- Fueled scanner deleting every lazy fenced span (the unconditional
code-block removal at the top of apply_vrd_compression; this regex has no
language-tag or newline requirement). -/
def stripCodeBlocksGo : Nat → Str → Str
  | 0, s => s
  | _ + 1, [] => []
  | f + 1, c :: rest =>
    if fence.isPrefixOf (c :: rest) then
      match findClose ((c :: rest).drop 3) with
      | some (_, after) => stripCodeBlocksGo f after
      | none => c :: stripCodeBlocksGo f rest
    else c :: stripCodeBlocksGo f rest

/-- src/main.rs lines 786-793: drop every line whose trimmed start is a
hash, joining the rest with newlines. -/
def vrdStripHeaderLines (s : Str) : Str :=
  joinNl ((rustLines s).filter (fun l => (rustTrimStart l).head? ≠ some '#'))

/-- src/main.rs lines 919-943 (apply_enhanced_arrow_notation in the
source; the name is shortened here): matcher for the causal capture
pattern (?i)(\w+)\s+<mid>\s+(\w+) rewritten to the two captured words
joined by an arrow (swapped for the receives pattern).  The greedy runs
need no backtracking because \w, \s and the literal are pairwise
disjoint at each joint. -/
def causalMatch (mid : Str) (swap : Bool) (_prev : Option Char) (s : Str) :
    Option (Nat × Str) :=
  let w1 := s.takeWhile isWordChar
  if w1 = [] then none else
  let s1 := s.drop w1.length
  let sp1 := s1.takeWhile isRustWhitespace
  if sp1 = [] then none else
  let s2 := s1.drop sp1.length
  if ciPre mid s2 then
    let s3 := s2.drop mid.length
    let sp2 := s3.takeWhile isRustWhitespace
    if sp2 = [] then none else
    let w2 := (s3.drop sp2.length).takeWhile isWordChar
    if w2 = [] then none else
    some (w1.length + sp1.length + mid.length + sp2.length + w2.length,
      if swap then w2 ++ '→' :: w1 else w1 ++ '→' :: w2)
  else none

/-- Matcher for the temporal capture pattern (?i)<lead>\s+(\w+),?\s+(\w+);
the optional comma is taken exactly when whitespace can still follow, which
is what regex backtracking yields here. -/
def temporalMatch (lead : Str) (_prev : Option Char) (s : Str) :
    Option (Nat × Str) :=
  if ciPre lead s then
    let s1 := s.drop lead.length
    let sp1 := s1.takeWhile isRustWhitespace
    if sp1 = [] then none else
    let w1 := (s1.drop sp1.length).takeWhile isWordChar
    if w1 = [] then none else
    let s2 := (s1.drop sp1.length).drop w1.length
    let k := if s2.head? = some ',' then 1 else 0
    let s3 := s2.drop k
    let sp2 := s3.takeWhile isRustWhitespace
    if sp2 = [] then none else
    let w2 := (s3.drop sp2.length).takeWhile isWordChar
    if w2 = [] then none else
    some (lead.length + sp1.length + w1.length + k + sp2.length + w2.length,
      w1 ++ '→' :: w2)
  else none

/-- Matcher for (?i)then\s+(\w+) rewritten to an arrow and the word. -/
def thenArrowMatch (_prev : Option Char) (s : Str) : Option (Nat × Str) :=
  if ciPre (str "then") s then
    let s1 := s.drop 4
    let sp := s1.takeWhile isRustWhitespace
    if sp = [] then none else
    let w := (s1.drop sp.length).takeWhile isWordChar
    if w = [] then none else some (4 + sp.length + w.length, '→' :: w)
  else none

/-- Matcher for (?i)(\w+)\s+passes\s+(\w+)\s+to\s+(\w+) rewritten to the
three captured words joined by arrows. -/
def passesMatch (_prev : Option Char) (s : Str) : Option (Nat × Str) :=
  let w1 := s.takeWhile isWordChar
  if w1 = [] then none else
  let s1 := s.drop w1.length
  let sp1 := s1.takeWhile isRustWhitespace
  if sp1 = [] then none else
  let s2 := s1.drop sp1.length
  if ciPre (str "passes") s2 then
    let s3 := s2.drop 6
    let sp2 := s3.takeWhile isRustWhitespace
    if sp2 = [] then none else
    let w2 := (s3.drop sp2.length).takeWhile isWordChar
    if w2 = [] then none else
    let s4 := (s3.drop sp2.length).drop w2.length
    let sp3 := s4.takeWhile isRustWhitespace
    if sp3 = [] then none else
    let s5 := s4.drop sp3.length
    if ciPre (str "to") s5 then
      let s6 := s5.drop 2
      let sp4 := s6.takeWhile isRustWhitespace
      if sp4 = [] then none else
      let w3 := (s6.drop sp4.length).takeWhile isWordChar
      if w3 = [] then none else
      some (w1.length + sp1.length + 6 + sp2.length + w2.length + sp3.length +
        2 + sp4.length + w3.length, w1 ++ '→' :: (w2 ++ '→' :: w3))
    else none
  else none

/-- src/main.rs lines 1084-1118 (apply_enhanced_arrow_notation in the
source): the fifteen case-insensitive patterns in order. -/
def apply_enhanced_arrow_rewrites (content : Str) : Str :=
  let r := rewriteAll (ciLit (str "user submits form") (str "user→form")) content
  let r := rewriteAll (ciLit (str "server validates data") (str "server→validate")) r
  let r := rewriteAll (ciLit (str "database stores result") (str "DB→store")) r
  let r := rewriteAll (ciLit (str "system sends response") (str "system→response")) r
  let r := rewriteAll (causalMatch (str "triggers") false) r
  let r := rewriteAll (causalMatch (str "causes") false) r
  let r := rewriteAll (causalMatch (str "leads to") false) r
  let r := rewriteAll (causalMatch (str "results in") false) r
  let r := rewriteAll (temporalMatch (str "after")) r
  let r := rewriteAll (temporalMatch (str "once")) r
  let r := rewriteAll (temporalMatch (str "when")) r
  let r := rewriteAll thenArrowMatch r
  let r := rewriteAll passesMatch r
  let r := rewriteAll (causalMatch (str "sends") false) r
  rewriteAll (causalMatch (str "receives") true) r

/-- src/main.rs lines 919-943 (apply_arrow_notation in the source): the
enhanced pass followed by nine plain literal replacements. -/
def apply_arrow_rewrites (content : Str) : Str :=
  let r := apply_enhanced_arrow_rewrites content
  [(str " then ", str "→"), (str " and then ", str "→"), (str " which ", str "→"),
   (str " that ", str "→"), (str " leads to ", str "→"), (str " results in ", str "→"),
   (str " causes ", str "→"), (str " triggers ", str "→"),
   (str " followed by ", str "→")].foldl (fun acc p => replaceAll p.1 p.2 acc) r

/-- src/main.rs lines 945-973 (apply_vrd_abbreviations): the seventeen
(full, abbreviation) pairs in source order. -/
def vrd_abbreviations : List (Str × Str) := [
  (str "application", str "app"), (str "configuration", str "CFG"),
  (str "authentication", str "AUTH"), (str "authorization", str "AUTHZ"),
  (str "database", str "DB"), (str "function", str "FN"),
  (str "parameter", str "PARAM"), (str "variable", str "var"),
  (str "interface", str "interface"), (str "implementation", str "IMPL"),
  (str "documentation", str "DOC"), (str "example", str "EX"),
  (str "installation", str "INST"), (str "development", str "dev"),
  (str "production", str "prod"), (str "environment", str "env"),
  (str "repository", str "repo")]

/-- src/main.rs lines 945-973: case-sensitive \b-framed replacements. -/
def apply_vrd_abbreviations (content : Str) : Str :=
  vrd_abbreviations.foldl (fun acc p => rewriteAll (wbAlt false true [p.1] p.2) acc)
    content

/-- The \s+(.+)$ tail of the whole-haystack VRD list regexes: the greedy
whitespace run backtracks only within an all-whitespace tail, where the
capture becomes the newline-free suffix. -/
def vrdSpaceRest (t : Str) : Option Str :=
  let w := t.takeWhile isRustWhitespace
  let r := t.dropWhile isRustWhitespace
  if w = [] then none
  else if r ≠ [] then (if r.contains '\n' then none else some r)
  else
    let suf := (t.reverse.takeWhile (fun c => c ≠ '\n')).reverse
    if suf ≠ [] ∧ suf.length < t.length then some suf else none

/-- src/main.rs lines 813-826 (compress_vrd_lists), bullet half: the
regex carries ^ and $ but no multiline flag, so it matches only the whole
haystack. -/
def anchoredBullet (s : Str) : Str :=
  match s with
  | b :: t =>
    if b = '*' ∨ b = '-' then
      match vrdSpaceRest t with
      | some cap => '•' :: cap
      | none => s
    else s
  | [] => s

/-- src/main.rs lines 813-826, numbered half (^\d+\.\s+(.+)$). -/
def anchoredNumbered (s : Str) : Str :=
  let d := s.takeWhile Char.isDigit
  if d = [] then s
  else
    match s.drop d.length with
    | '.' :: t =>
      match vrdSpaceRest t with
      | some cap => '№' :: cap
      | none => s
    | _ => s

/-- src/main.rs lines 813-826. -/
def compress_vrd_lists (content : Str) : Str :=
  anchoredNumbered (anchoredBullet content)

/-- src/main.rs lines 828-852 (compress_vrd_sentences): twelve
case-insensitive literal phrase replacements in source order. -/
def vrd_sentence_replacements : List (Str × Str) := [
  (str "in order to", str "to"), (str "due to the fact that", str "because"),
  (str "it is important to note that", str "NOTE:"),
  (str "please note that", str "NOTE:"),
  (str "as mentioned above", str "↑"), (str "as shown below", str "↓"),
  (str "for example", str "EX:"), (str "such as", str "e.g."),
  (str "and so on", str "etc"), (str "at this point in time", str "now"),
  (str "in the event that", str "if"), (str "on the other hand", str "vs")]

/-- src/main.rs lines 828-852. -/
def compress_vrd_sentences (content : Str) : Str :=
  vrd_sentence_replacements.foldl (fun acc p => rewriteAll (ciLit p.1 p.2) acc)
    content

/-- src/main.rs lines 975-1048 (apply_extreme_vrd_compression): the
fifty case-insensitive \b-framed phrase replacements, in source order. -/
def vrd_aggressive_replacements : List (Str × Str) := [
  (str "in order to", str "to"), (str "due to the fact that", str "because"),
  (str "it is important to note that", str "NOTE:"),
  (str "please note that", str "NOTE:"),
  (str "as mentioned above", str "↑"), (str "as shown below", str "↓"),
  (str "for example", str "EX:"), (str "such as", str "e.g."),
  (str "and so on", str "etc"), (str "at this point in time", str "now"),
  (str "in the event that", str "if"), (str "on the other hand", str "vs"),
  (str "Generated:", str "Gen:"), (str "Created:", str "Made:"),
  (str "Implemented:", str "Built:"), (str "Achievement:", str "Win:"),
  (str "Accomplished:", str "Done:"), (str "Features", str "F:"),
  (str "Priority", str "P"), (str "Current", str "Now"),
  (str "Strategic", str "Strategy"), (str "Technical", str "Tech"),
  (str "Development", str "Dev"), (str "Implementation", str "Impl"),
  (str "Optimization", str "Opt"), (str "Specification", str "Spec"),
  (str "Documentation", str "Doc"), (str "Repository", str "Repo"),
  (str "Application", str "App"), (str "Configuration", str "Config"),
  (str "Environment", str "Env"), (str "Performance", str "Perf"),
  (str "Quality Assurance", str "QA"), (str "User Experience", str "UX"),
  (str "Breakthrough", str "Win"), (str "represents", str "="),
  (str "demonstrates", str "shows"), (str "successfully", str "✓"),
  (str "efficiently", str "fast"), (str "comprehensive", str "full"),
  (str "innovative", str "new"), (str "revolutionary", str "new"),
  (str "significant", str "big"), (str "important", str "key"),
  (str "potential", str "could"), (str "capability", str "can"),
  (str "functionality", str "work"), (str "opportunity", str "chance"),
  (str "improvement", str "fix"), (str "enhancement", str "boost")]

/-- src/main.rs lines 975-1048: articles, nine case-sensitive filler
deletions, the two asterisk strips, then the aggressive phrase list. -/
def apply_extreme_vrd_compression (content : Str) : Str :=
  let r := rewriteAll articleMatch content
  let r := [str "really", str "very", str "quite", str "just", str "simply",
    str "basically", str "essentially", str "actually", str "literally"].foldl
    (fun acc w => rewriteAll (fillerMatch false w) acc) r
  let r := replaceAll (str "**") [] r
  let r := replaceAll (str "*") [] r
  vrd_aggressive_replacements.foldl
    (fun acc p => rewriteAll (wbAlt true true [p.1] p.2) acc) r

/-- src/main.rs lines 1050-1082 (apply_mathematical_notation in the
source): sixteen case-insensitive patterns; each entry lists the literal
alternatives in the order regex tries them and whether the pattern closes
with a trailing \b. -/
def apply_mathematical_rewrites (content : Str) : Str :=
  [([str "return"], str "→", true), ([str "yield"], str "⟶", true),
   ([str "therefore"], str "∴", true), ([str "because"], str "∵", true),
   ([str "equals", str "equal"], str "=", true),
   ([str "not equal"], str "≠", false),
   ([str "greater than or equal"], str "≥", false),
   ([str "less than or equal"], str "≤", false),
   ([str "approximately"], str "≈", false), ([str "infinity"], str "∞", false),
   ([str "sum of"], str "Σ", false), ([str "for all"], str "∀", false),
   ([str "there exists"], str "∃", false), ([str "mapping to"], str "↦", false),
   ([str "implies"], str "⟹", false),
   ([str "if and only if"], str "⟺", false)].foldl
    (fun acc e => rewriteAll (wbAlt true e.2.2 e.1 e.2.1) acc) content

/-- src/main.rs lines 778-811 (apply_vrd_compression). -/
def apply_vrd_compression (content level : Str) : Str :=
  let r := stripCodeBlocksGo content.length content
  let r := vrdStripHeaderLines r
  let r := remove_excessive_whitespace r
  let r := remove_empty_lines r
  let r := apply_arrow_rewrites r
  let r := apply_vrd_abbreviations r
  let r := compress_vrd_lists r
  let r := compress_vrd_sentences r
  if level = str "high" ∨ level = str "extreme" then
    apply_mathematical_rewrites (apply_extreme_vrd_compression r)
  else r

/-- Rust str::lines().count(): zero on the empty string. -/
def lineCount (s : Str) : Nat := if s = [] then 0 else (rustLines s).length

/-- src/main.rs lines 73-82: the VrdFile record; the modification
timestamp read from the filesystem is carried as its formatted text. -/
structure VrdFile where
  name : Str
  modified : Str
  size : Nat
  lineTotal : Nat
  tags : List Str
  headers : List Str
  content : Str
  code_blocks : List Str

/-- src/main.rs lines 742-777 (process_file_for_vrd); the filesystem
modification time is a parameter here. -/
def process_file_for_vrd (filename content : Str) (level : Str)
    (no_emojis : Bool) (modified : Str) : VrdFile :=
  let processed := if no_emojis then remove_emojis content else content
  { name := filename
    modified := modified
    size := utf8Len content
    lineTotal := lineCount content
    tags := extract_enhanced_tags_from_content content
    headers := extract_headers_for_vrd content no_emojis
    content := apply_vrd_compression processed level
    code_blocks := extract_and_compress_code_blocks processed }

/-- src/main.rs lines 1158-1171: the ten VRD dictionary entries
(abbreviation, full form), emitted as ABBREV=full. -/
def vrd_dict_entries : List (Str × Str) := [
  (str "FN", str "function"), (str "PARAM", str "parameter"),
  (str "AUTH", str "authentication"), (str "DB", str "database"),
  (str "API", str "application programming interface"),
  (str "CFG", str "configuration"), (str "DOC", str "documentation"),
  (str "IMPL", str "implementation"), (str "ENV", str "environment"),
  (str "REPO", str "repository")]

/-- src/main.rs lines 1180-1210: the per-file section of the VRD body. -/
def vrdFileSection (file : VrdFile) : Str :=
  str "F:" ++ file.name ++ str "|D:" ++ file.modified ++
  str "|S:" ++ natChars file.size ++ str "|L:" ++ natChars file.lineTotal ++
  str "|T:" ++ joinSep (str ",") file.tags ++ ['\n'] ++
  (if file.headers ≠ [] then str "H:" ++ joinSep (str ",") file.headers ++ ['\n']
   else []) ++
  (if rustTrim file.content ≠ [] then str "C:" ++ rustTrim file.content ++ ['\n']
   else []) ++
  (file.code_blocks.flatMap (fun cb => str "X:" ++ cb ++ ['\n'])) ++
  str "|\n"

/-- src/main.rs lines 1145-1212 (build_vrd_output): header line with the
CHUNKS:1/1 token, the literal metadata placeholder, the dictionary line,
the separator, then the file sections joined by blank separators. -/
def build_vrd_output (files : List VrdFile) (model level : Str) : Str :=
  str "VRD1.0|TARGET:" ++ toUpperStr model ++ str "|MODE:" ++ toUpperStr level ++
  str "|CHUNKS:1/1\n" ++
  str "META:\x7bfiles:0,tokens:0,compressed:0.0%,generated:2025-01-01T00:00:00Z\x7d\n" ++
  str "DICT:\x7b" ++
    joinSep (str ",") (vrd_dict_entries.map (fun p => p.1 ++ '=' :: p.2)) ++
  str "\x7d\n---\n" ++
  joinSep (str "\n") (files.map vrdFileSection)

/-- src/main.rs lines 84-89: the VrdMetadata record.  The f64 percentage
field is carried as the signed number of tenths of a percent that its
printed one-decimal rendering shows. -/
structure VrdMetadata where
  files_count : Nat
  estimated_tokens : Nat
  compression_tenths : Int
  generated : Str

/-- One-decimal rendering of a signed number of tenths ({:.1} of the
percentage). -/
def fmtTenths (t : Int) : Str :=
  (if t < 0 then ['-'] else []) ++
  natChars (t.natAbs / 10) ++ '.' :: natChars (t.natAbs % 10)

/-- The literal metadata placeholder of build_vrd_output. -/
def vrdPlaceholder : Str :=
  str "META:\x7bfiles:0,tokens:0,compressed:0.0%,generated:2025-01-01T00:00:00Z\x7d"

/-- The substituted metadata text of update_vrd_metadata. -/
def metaSubst (m : VrdMetadata) : Str :=
  str "META:\x7bfiles:" ++ natChars m.files_count ++
  str ",tokens:" ++ natChars m.estimated_tokens ++
  str ",compressed:" ++ fmtTenths m.compression_tenths ++
  str "%,generated:" ++ m.generated ++ str "\x7d"

/-- src/main.rs lines 729-741 (update_vrd_metadata): str::replace of the
placeholder, every occurrence. -/
def update_vrd_metadata (content : Str) (m : VrdMetadata) : Str :=
  replaceAll vrdPlaceholder (metaSubst m) content

/-- src/main.rs lines 716-721: the percentage
(original - compressed) / original * 100 in tenths; 0 when the original
size is zero, exactly as the source's else branch.  Off that branch this
integer rounding is only an approximation of the source's f64 arithmetic
and {:.1} formatting (the two can differ in the last digit), so the
theorems below pin the value only on the original = 0 branch. -/
def compressionTenths (orig comp : Nat) : Int :=
  if orig = 0 then 0
  else
    let num : Int := ((orig : Int) - (comp : Int)) * 1000
    (2 * num + (if 0 ≤ num then (orig : Int) else -(orig : Int))) / (2 * orig)

/-- src/main.rs lines 696-727 (generate_vrd_content): each input is a
(name, content, formatted modification time) triple; now is the formatted
Utc::now() timestamp.  The token estimate and the percentage are computed
from the byte length of the payload before placeholder substitution. -/
def generate_vrd_content (files : List (Str × Str × Str)) (model level : Str)
    (no_emojis : Bool) (now : Str) : Str :=
  let vrdFiles := files.map (fun f => process_file_for_vrd f.1 f.2.1 level no_emojis f.2.2)
  let vrd_content := build_vrd_output vrdFiles model level
  let compressed_size := utf8Len vrd_content
  let original_size := (files.map (fun f => utf8Len f.2.1)).sum
  update_vrd_metadata vrd_content
    { files_count := files.length
      estimated_tokens := compressed_size / 4
      compression_tenths := compressionTenths original_size compressed_size
      generated := now }

/-- src/main.rs lines 245-283 (compress_all_content): the vrd and md arms
return the assembled payload, which main then writes out; the default arm
prints the unsupported-format message and calls process::exit(1) before
any payload exists, modelled as the error case. -/
def compress_all_content (files : List (Str × Str × Str))
    (format model level : Str) (ai_mode no_emojis : Bool) (now : Str) :
    Except Str Str :=
  if format = str "vrd" then
    Except.ok (generate_vrd_content files model level no_emojis now)
  else if format = str "md" then
    Except.ok (files.foldl
      (fun acc f => acc ++ str "F:" ++ f.1 ++ '\n' ::
        (compress_content f.2.1 level model ai_mode no_emojis ++ str "\n|\n"))
      (create_model_header model ai_mode))
  else
    Except.error (str "Unsupported format: " ++ format)

/-- The formatted timestamp used by the concrete VRD runs below. -/
def vrdNow0 : Str := str "2025-01-02T03:04:05Z"

/-- The VRD header line of build_vrd_output up to (and excluding) its
trailing newline: the fixed frame around the two uppercased fields. -/
def vrdFrameHead (model level : Str) : Str :=
  str "VRD1.0|TARGET:" ++ toUpperStr model ++ str "|MODE:" ++ toUpperStr level ++
  str "|CHUNKS:1/1"

/-- The dictionary line of build_vrd_output without its newline. -/
def vrdDictLine : Str :=
  str "DICT:\x7b" ++
    joinSep (str ",") (vrd_dict_entries.map (fun p => p.1 ++ '=' :: p.2)) ++
  str "\x7d"

/-- The per-file processing loop of generate_vrd_content. -/
def vrdProcessed (files : List (Str × Str × Str)) (level : Str) (ne : Bool) :
    List VrdFile :=
  files.map (fun f => process_file_for_vrd f.1 f.2.1 level ne f.2.2)

/-- The joined file sections of build_vrd_output. -/
def vrdBody (files : List (Str × Str × Str)) (level : Str) (ne : Bool) : Str :=
  joinSep (str "\n") ((vrdProcessed files level ne).map vrdFileSection)

/-- The byte length of the VRD payload before placeholder substitution
(the compressed_size of generate_vrd_content). -/
def vrdPreBytes (files : List (Str × Str × Str)) (model level : Str)
    (ne : Bool) : Nat :=
  utf8Len (build_vrd_output (vrdProcessed files level ne) model level)

/-- The summed byte length of the input contents (the original_size the
caller hands to generate_vrd_content). -/
def vrdOrigBytes (files : List (Str × Str × Str)) : Nat :=
  (files.map (fun f => utf8Len f.2.1)).sum

/-- The metadata record generate_vrd_content builds: both the token
estimate and the percentage are computed from the byte length of the
payload before placeholder substitution. -/
def vrdComputedMeta (files : List (Str × Str × Str)) (model level : Str)
    (ne : Bool) (now : Str) : VrdMetadata :=
  { files_count := files.length
    estimated_tokens := vrdPreBytes files model level ne / 4
    compression_tenths :=
      compressionTenths (vrdOrigBytes files) (vrdPreBytes files model level ne)
    generated := now }

/-- A two-file corpus of empty documents for the concrete VRD run. -/
def c2files : List (Str × Str × Str) :=
  [(str "a.md", str "", vrdNow0), (str "b.md", str "", vrdNow0)]

/-! ## Deduplicator proofs -/

theorem dedupParas_spec (ps : List Str) : ∀ seen1 seen2,
    (∀ x, x ∈ seen1 ↔ x ∈ seen2) →
    (dedupParas seen1 ps).1 = (dedupSpecParas seen2 ps).1 ∧
    ∀ x, x ∈ (dedupParas seen1 ps).2.1 ↔ x ∈ (dedupSpecParas seen2 ps).2 := by
  induction ps with
  | nil => intro s1 s2 h; exact ⟨rfl, h⟩
  | cons p ps ih =>
    intro s1 s2 h
    simp only [dedupParas, dedupSpecParas]
    by_cases hb : utf8Len (rustTrim p) > 30
    · simp only [if_pos hb]
      by_cases hs : rustTrim p ∈ s1
      · have hs2 : rustTrim p ∈ s2 := (h _).mp hs
        have hsee : ∀ x, x ∈ s1 ↔ x ∈ rustTrim p :: s2 := by
          intro x
          constructor
          · intro hx; exact List.mem_cons_of_mem _ ((h x).mp hx)
          · intro hx
            rcases List.mem_cons.mp hx with h1 | h2
            · exact h1 ▸ hs
            · exact (h x).mpr h2
        have hi := ih s1 (rustTrim p :: s2) hsee
        simp only [if_pos hs, if_pos hs2]
        exact ⟨hi.1, hi.2⟩
      · have hs2 : rustTrim p ∉ s2 := fun hx => hs ((h _).mpr hx)
        have hsee : ∀ x, x ∈ rustTrim p :: s1 ↔ x ∈ rustTrim p :: s2 := by
          intro x
          simp only [List.mem_cons]
          exact or_congr Iff.rfl (h x)
        have hi := ih (rustTrim p :: s1) (rustTrim p :: s2) hsee
        simp only [if_neg hs, if_neg hs2]
        exact ⟨by rw [hi.1], hi.2⟩
    · simp only [if_neg hb]
      have hi := ih s1 s2 h
      exact ⟨by rw [hi.1], hi.2⟩

theorem dedupGo_spec (files : List (Str × Str × Str)) : ∀ seen1 seen2,
    (∀ x, x ∈ seen1 ↔ x ∈ seen2) →
    (remove_duplicate_content_go seen1 files).1 = dedupSpecGo seen2 files := by
  induction files with
  | nil => intro s1 s2 _; rfl
  | cons f files ih =>
    intro s1 s2 h
    obtain ⟨name, content, path⟩ := f
    have hp := dedupParas_spec (splitNl content) s1 s2 h
    simp only [remove_duplicate_content_go, dedupSpecGo]
    rw [hp.1, ih _ _ hp.2]

/-- C1 (amended): the deduplication pass agrees with the spec-side
description in which a paragraph of trimmed UTF-8 length above 30 bytes
is deleted exactly when its trimmed text already occurred as an earlier
long paragraph of the run, and it is order sensitive: with documents
A and B sharing one long paragraph, order A B keeps it in A and deletes
it from B, while order B A keeps it in B and deletes it from A. -/
theorem C1_dedup_spec_and_order :
    (∀ files, (remove_duplicate_content files).1 = dedupSpec files) ∧
    (remove_duplicate_content [dedupDocA, dedupDocB]).1 =
      [dedupDocA, (str "b.md", [], str "b.md")] ∧
    (remove_duplicate_content [dedupDocB, dedupDocA]).1 =
      [dedupDocB, (str "a.md", str "X", str "a.md")] := by
  refine ⟨?_, by decide, by decide⟩
  intro files
  exact dedupGo_spec files [] [] (fun x => Iff.rfl)

/-- C1 counterexample: the euro paragraph has trimmed length 11
characters (at most 30), yet its duplicate in the second document is
deleted, because the code compares the byte length 33 against the
threshold; this refutes the claim that every paragraph of trimmed
length at most 30 characters always passes through unchanged. -/
theorem C1_counterexample :
    (rustTrim euroPara).length ≤ 30 ∧
    (remove_duplicate_content euroFiles).1 =
      [(str "a.md", euroPara, str "a.md"), (str "b.md", [], str "b.md")] := by
  decide

/-- C10: with compression level low the deduplication pass is skipped
entirely (every document passes through unchanged and the removed
counter stays zero), and for every other level the pass is exactly
remove_duplicate_content; on a corpus with a duplicated long paragraph
the low level keeps the duplicate while the pass itself would remove
one paragraph. -/
theorem C10_low_level_skips_dedup :
    (∀ files, dedupPhase (str "low") files = (files, 0)) ∧
    (∀ level files, level ≠ str "low" →
      dedupPhase level files = remove_duplicate_content files) ∧
    dedupPhase (str "low") dupDemoFiles = (dupDemoFiles, 0) ∧
    (remove_duplicate_content dupDemoFiles).2 = 1 := by
  refine ⟨?_, ?_, ?_, by decide⟩
  · intro files; simp [dedupPhase]
  · intro level files h; simp [dedupPhase, h]
  · simp [dedupPhase]

/-- Witness for C10: instantiating the second conjunct at level medium
on the demo corpus. -/
theorem C10_witness :
    dedupPhase (str "medium") dupDemoFiles = remove_duplicate_content dupDemoFiles :=
  C10_low_level_skips_dedup.2.1 (str "medium") dupDemoFiles (by decide)

/-! ## TextNormalizer lemmas -/

theorem mem_of_getLastOpt {x : Char} {l : Str} (h : x ∈ l.getLast?) : x ∈ l := by
  rcases List.mem_getLast?_eq_getLast h with ⟨hne, rfl⟩
  exact List.getLast_mem hne

theorem mem_collapsePair (a : Char) : ∀ s : Str, ∀ c ∈ collapsePair a s, c ∈ s
  | [], c, h => h
  | [d], c, h => h
  | d :: e :: rest, c, h => by
    by_cases hde : d = a ∧ e = a
    · simp only [collapsePair, if_pos hde] at h
      exact List.mem_cons_of_mem _ (mem_collapsePair a (e :: rest) c h)
    · simp only [collapsePair, if_neg hde] at h
      rcases List.mem_cons.mp h with h1 | h2
      · exact h1 ▸ List.mem_cons_self _ _
      · exact List.mem_cons_of_mem _ (mem_collapsePair a (e :: rest) c h2)

theorem mem_dropSpacesBeforeNl : ∀ s : Str, ∀ c ∈ dropSpacesBeforeNl s, c ∈ s := by
  intro s
  induction s with
  | nil => intro c h; exact h
  | cons d rest ih =>
    intro c h
    simp only [dropSpacesBeforeNl] at h
    by_cases hd : d = ' '
    · rw [if_pos hd] at h
      split at h
      · exact List.mem_cons_of_mem _ (ih c h)
      · rcases List.mem_cons.mp h with h1 | h2
        · exact h1 ▸ List.mem_cons_self _ _
        · exact List.mem_cons_of_mem _ (ih c h2)
    · rw [if_neg hd] at h
      rcases List.mem_cons.mp h with h1 | h2
      · exact h1 ▸ List.mem_cons_self _ _
      · exact List.mem_cons_of_mem _ (ih c h2)

theorem mem_remove_excessive_whitespace {c : Char} {s : Str}
    (h : c ∈ remove_excessive_whitespace s) : c ∈ s :=
  mem_collapsePair '\n' s c
    (mem_collapsePair ' ' (collapsePair '\n' s) c
      (mem_dropSpacesBeforeNl (collapsePair ' ' (collapsePair '\n' s)) c h))

theorem mem_of_mem_rustLines : ∀ s : Str, ∀ l ∈ rustLines s, ∀ c ∈ l, c ∈ s
  | [], l, hl, c, _ => absurd hl (by simp [rustLines])
  | [d], l, hl, c, hc => by
    simp only [rustLines] at hl
    by_cases hd : d = '\n'
    · rw [if_pos hd] at hl
      obtain rfl := List.mem_singleton.mp hl
      exact absurd hc (List.not_mem_nil c)
    · rw [if_neg hd] at hl
      obtain rfl := List.mem_singleton.mp hl
      exact hc
  | c0 :: d :: rest, l, hl, c, hc => by
    by_cases h0 : c0 = '\n'
    · rw [rustLines, if_pos h0] at hl
      rcases List.mem_cons.mp hl with h1 | h2
      · subst h1; exact absurd hc (List.not_mem_nil c)
      · exact List.mem_cons_of_mem _ (mem_of_mem_rustLines (d :: rest) l h2 c hc)
    · by_cases h1 : c0 = '\r' ∧ d = '\n'
      · rw [rustLines, if_neg h0, if_pos h1] at hl
        rcases List.mem_cons.mp hl with h2 | h3
        · subst h2; exact absurd hc (List.not_mem_nil c)
        · exact List.mem_cons_of_mem _ (List.mem_cons_of_mem _
            (mem_of_mem_rustLines rest l h3 c hc))
      · rw [rustLines, if_neg h0, if_neg h1] at hl
        rcases hM : rustLines (d :: rest) with _ | ⟨m, ms⟩
        · rw [hM] at hl
          obtain rfl := List.mem_singleton.mp hl
          rcases List.mem_singleton.mp hc with rfl
          exact List.mem_cons_self _ _
        · rw [hM] at hl
          rcases List.mem_cons.mp hl with h2 | h3
          · subst h2
            rcases List.mem_cons.mp hc with rfl | h4
            · exact List.mem_cons_self _ _
            · refine List.mem_cons_of_mem _ ?_
              refine mem_of_mem_rustLines (d :: rest) m ?_ c h4
              rw [hM]; exact List.mem_cons_self _ _
          · refine List.mem_cons_of_mem _ ?_
            refine mem_of_mem_rustLines (d :: rest) l ?_ c hc
            rw [hM]; exact List.mem_cons_of_mem _ h3

theorem nl_not_mem_rustLines : ∀ s : Str, ∀ l ∈ rustLines s, '\n' ∉ l
  | [], l, hl => absurd hl (by simp [rustLines])
  | [d], l, hl => by
    simp only [rustLines] at hl
    by_cases hd : d = '\n'
    · rw [if_pos hd] at hl
      obtain rfl := List.mem_singleton.mp hl
      exact List.not_mem_nil _
    · rw [if_neg hd] at hl
      obtain rfl := List.mem_singleton.mp hl
      intro hc
      exact hd (List.mem_singleton.mp hc).symm
  | c0 :: d :: rest, l, hl => by
    by_cases h0 : c0 = '\n'
    · rw [rustLines, if_pos h0] at hl
      rcases List.mem_cons.mp hl with h1 | h2
      · subst h1; exact List.not_mem_nil _
      · exact nl_not_mem_rustLines (d :: rest) l h2
    · by_cases h1 : c0 = '\r' ∧ d = '\n'
      · rw [rustLines, if_neg h0, if_pos h1] at hl
        rcases List.mem_cons.mp hl with h2 | h3
        · subst h2; exact List.not_mem_nil _
        · exact nl_not_mem_rustLines rest l h3
      · rw [rustLines, if_neg h0, if_neg h1] at hl
        rcases hM : rustLines (d :: rest) with _ | ⟨m, ms⟩
        · rw [hM] at hl
          obtain rfl := List.mem_singleton.mp hl
          intro hc
          exact h0 (List.mem_singleton.mp hc).symm
        · rw [hM] at hl
          rcases List.mem_cons.mp hl with h2 | h3
          · subst h2
            intro hc
            rcases List.mem_cons.mp hc with h4 | h5
            · exact h0 h4.symm
            · refine nl_not_mem_rustLines (d :: rest) m ?_ h5
              rw [hM]; exact List.mem_cons_self _ _
          · refine nl_not_mem_rustLines (d :: rest) l ?_
            rw [hM]; exact List.mem_cons_of_mem _ h3

theorem rustLines_ne_nil : ∀ (c : Char) (s : Str), rustLines (c :: s) ≠ []
  | c, [] => by
    simp only [rustLines]
    by_cases hc : c = '\n'
    · rw [if_pos hc]; exact List.cons_ne_nil _ _
    · rw [if_neg hc]; exact List.cons_ne_nil _ _
  | c, d :: rest => by
    by_cases h0 : c = '\n'
    · rw [rustLines, if_pos h0]; exact List.cons_ne_nil _ _
    · by_cases h1 : c = '\r' ∧ d = '\n'
      · rw [rustLines, if_neg h0, if_pos h1]; exact List.cons_ne_nil _ _
      · rw [rustLines, if_neg h0, if_neg h1]
        rcases hM : rustLines (d :: rest) with _ | ⟨m, ms⟩
        · exact List.cons_ne_nil _ _
        · exact List.cons_ne_nil _ _

theorem head_rustLines_isPre : ∀ (s : Str) (l : Str) (ls : List Str),
    rustLines s = l :: ls → l <+: s
  | [], l, ls, h => by simp [rustLines] at h
  | [c], l, ls, h => by
    simp only [rustLines] at h
    by_cases hc : c = '\n'
    · rw [if_pos hc] at h
      injection h with h1 _
      exact h1 ▸ List.nil_prefix
    · rw [if_neg hc] at h
      injection h with h1 _
      exact h1 ▸ List.prefix_refl _
  | c :: d :: rest, l, ls, h => by
    by_cases h0 : c = '\n'
    · rw [rustLines, if_pos h0] at h
      injection h with h1 _
      exact h1 ▸ List.nil_prefix
    · by_cases h1 : c = '\r' ∧ d = '\n'
      · rw [rustLines, if_neg h0, if_pos h1] at h
        injection h with h2 _
        exact h2 ▸ List.nil_prefix
      · rw [rustLines, if_neg h0, if_neg h1] at h
        rcases hM : rustLines (d :: rest) with _ | ⟨m, ms⟩
        · rw [hM] at h
          injection h with h2 _
          subst h2
          exact ⟨d :: rest, rfl⟩
        · rw [hM] at h
          injection h with h2 _
          subst h2
          obtain ⟨u, hu⟩ := head_rustLines_isPre (d :: rest) m ms hM
          exact ⟨u, by rw [List.cons_append, hu]⟩

theorem noPair_of_not_mem (a b : Char) : ∀ s : Str, b ∉ s → NoPair a b s
  | [], _ => List.chain'_nil
  | [c], _ => List.chain'_singleton c
  | c :: d :: rest, h => by
    refine List.chain'_cons.mpr ⟨?_, ?_⟩
    · rintro ⟨_, hd⟩
      exact h (hd ▸ List.mem_cons_of_mem _ (List.mem_cons_self _ _))
    · exact noPair_of_not_mem a b (d :: rest) (fun hb => h (List.mem_cons_of_mem _ hb))

theorem noPair_of_isPre {a b : Char} {s t : Str} (hs : NoPair a b s) (ht : t <+: s) :
    NoPair a b t := by
  obtain ⟨u, rfl⟩ := ht
  exact (List.chain'_append.mp hs).1

theorem noPair_rustLines (a b : Char) : ∀ s : Str, NoPair a b s →
    ∀ l ∈ rustLines s, NoPair a b l
  | [], _, l, hl => absurd hl (by simp [rustLines])
  | [c], _, l, hl => by
    simp only [rustLines] at hl
    by_cases hc : c = '\n'
    · rw [if_pos hc] at hl
      obtain rfl := List.mem_singleton.mp hl
      exact List.chain'_nil
    · rw [if_neg hc] at hl
      obtain rfl := List.mem_singleton.mp hl
      exact List.chain'_singleton c
  | c :: d :: rest, h, l, hl => by
    by_cases h0 : c = '\n'
    · rw [rustLines, if_pos h0] at hl
      rcases List.mem_cons.mp hl with h1 | h2
      · subst h1; exact List.chain'_nil
      · exact noPair_rustLines a b (d :: rest) h.tail l h2
    · by_cases h1 : c = '\r' ∧ d = '\n'
      · rw [rustLines, if_neg h0, if_pos h1] at hl
        rcases List.mem_cons.mp hl with h2 | h3
        · subst h2; exact List.chain'_nil
        · exact noPair_rustLines a b rest h.tail.tail l h3
      · rw [rustLines, if_neg h0, if_neg h1] at hl
        rcases hM : rustLines (d :: rest) with _ | ⟨m, ms⟩
        · rw [hM] at hl
          obtain rfl := List.mem_singleton.mp hl
          exact List.chain'_singleton c
        · rw [hM] at hl
          rcases List.mem_cons.mp hl with h2 | h3
          · subst h2
            have hm : m <+: d :: rest := head_rustLines_isPre (d :: rest) m ms hM
            obtain ⟨u, hu⟩ := hm
            exact noPair_of_isPre h ⟨u, by rw [List.cons_append, hu]⟩
          · refine noPair_rustLines a b (d :: rest) h.tail l ?_
            rw [hM]; exact List.mem_cons_of_mem _ h3

theorem collapsePair_eq_self (a : Char) : ∀ s : Str, NoPair a a s → collapsePair a s = s
  | [], _ => rfl
  | [_], _ => rfl
  | c :: d :: rest, h => by
    have h1 := (List.chain'_cons.mp h).1
    simp only [collapsePair, if_neg h1]
    rw [collapsePair_eq_self a (d :: rest) (List.chain'_cons.mp h).2]

theorem headOpt_collapsePair (a : Char) : ∀ (d : Char) (rest : Str),
    (collapsePair a (d :: rest)).head? = some d
  | _, [] => rfl
  | d, e :: rest => by
    by_cases h : d = a ∧ e = a
    · simp only [collapsePair, if_pos h]
      rw [headOpt_collapsePair a e rest, h.1, h.2]
    · simp only [collapsePair, if_neg h, List.head?_cons]

theorem noPair_collapsePair (a : Char) : ∀ s : Str, NoPair a a (collapsePair a s)
  | [] => List.chain'_nil
  | [c] => List.chain'_singleton c
  | c :: d :: rest => by
    by_cases h : c = a ∧ d = a
    · simp only [collapsePair, if_pos h]
      exact noPair_collapsePair a (d :: rest)
    · simp only [collapsePair, if_neg h]
      refine List.chain'_cons'.mpr ⟨?_, noPair_collapsePair a (d :: rest)⟩
      intro y hy
      rw [headOpt_collapsePair a d rest] at hy
      obtain rfl := (Option.mem_some_iff.mp hy).symm
      exact h

theorem headOpt_dropSpacesBeforeNl {c : Char} (rest : Str) (hc : c ≠ ' ') :
    (dropSpacesBeforeNl (c :: rest)).head? = some c := by
  simp only [dropSpacesBeforeNl, if_neg hc, List.head?_cons]

theorem dropSpacesBeforeNl_eq_self : ∀ s : Str, NoPair ' ' '\n' s →
    dropSpacesBeforeNl s = s := by
  intro s
  induction s with
  | nil => intro _; rfl
  | cons c rest ih =>
    intro h
    have hrest : NoPair ' ' '\n' rest := h.tail
    simp only [dropSpacesBeforeNl]
    rw [ih hrest]
    by_cases hc : c = ' '
    · rw [if_pos hc]
      cases rest with
      | nil => rfl
      | cons d rest2 =>
        have hd : d ≠ '\n' := fun hdn => (List.chain'_cons.mp h).1 ⟨hc, hdn⟩
        split
        · next heq =>
          exact absurd (List.head_eq_of_cons_eq heq) hd
        · rw [hc]
    · rw [if_neg hc]

theorem noPair_spNl_dropSpacesBeforeNl : ∀ s : Str, NoPair ' ' '\n' (dropSpacesBeforeNl s) := by
  intro s
  induction s with
  | nil => exact List.chain'_nil
  | cons c rest ih =>
    simp only [dropSpacesBeforeNl]
    by_cases hc : c = ' '
    · rw [if_pos hc]
      split
      · exact ih
      · next hne =>
        refine List.chain'_cons'.mpr ⟨?_, ih⟩
        intro y hy
        rintro ⟨-, rfl⟩
        rcases hr : dropSpacesBeforeNl rest with _ | ⟨z, zs⟩
        · rw [hr] at hy; exact absurd hy (by simp)
        · rw [hr] at hy
          rw [List.head?_cons] at hy
          obtain rfl := (Option.mem_some_iff.mp hy).symm
          rw [hr] at hne
          exact hne zs rfl
    · rw [if_neg hc]
      refine List.chain'_cons'.mpr ⟨?_, ih⟩
      intro y _
      rintro ⟨hcs, -⟩
      exact hc hcs

theorem noPair_spSp_dropSpacesBeforeNl : ∀ s : Str, NoPair ' ' ' ' s →
    NoPair ' ' ' ' (dropSpacesBeforeNl s) := by
  intro s
  induction s with
  | nil => intro _; exact List.chain'_nil
  | cons c rest ih =>
    intro h
    have ihr := ih h.tail
    simp only [dropSpacesBeforeNl]
    by_cases hc : c = ' '
    · rw [if_pos hc]
      split
      · exact ihr
      · next hne =>
        refine List.chain'_cons'.mpr ⟨?_, ihr⟩
        intro y hy
        rintro ⟨-, rfl⟩
        cases rest with
        | nil => simp [dropSpacesBeforeNl] at hy
        | cons d rest2 =>
          have hd : d ≠ ' ' := fun hds => (List.chain'_cons.mp h).1 ⟨hc, hds⟩
          rw [headOpt_dropSpacesBeforeNl rest2 hd] at hy
          exact hd (Option.mem_some_iff.mp hy)
    · rw [if_neg hc]
      refine List.chain'_cons'.mpr ⟨?_, ihr⟩
      intro y _
      rintro ⟨hcs, -⟩
      exact hc hcs

theorem rustLines_single : ∀ l : Str, l ≠ [] → '\n' ∉ l → rustLines l = [l]
  | [], hne, _ => absurd rfl hne
  | [c], _, h => by
    have hc : c ≠ '\n' := fun hx => h (hx ▸ List.mem_singleton.mpr rfl)
    simp only [rustLines, if_neg hc]
  | c :: d :: rest, _, h => by
    have hc : c ≠ '\n' := fun hx => h (hx ▸ List.mem_cons_self _ _)
    have hd : d ≠ '\n' := fun hx =>
      h (hx ▸ List.mem_cons_of_mem _ (List.mem_cons_self _ _))
    rw [rustLines, if_neg hc, if_neg (fun hp => hd hp.2)]
    rw [rustLines_single (d :: rest) (List.cons_ne_nil _ _)
      (fun hx => h (List.mem_cons_of_mem _ hx))]
    rfl

theorem rustLines_append : ∀ l : Str, '\n' ∉ l → '\r' ∉ l → ∀ rest : Str,
    rustLines (l ++ '\n' :: rest) = l :: rustLines rest
  | [], _, _, rest => by
    cases rest with
    | nil => simp [rustLines]
    | cons d rest2 => simp [rustLines]
  | c :: l2, hn, hr, rest => by
    have hc : c ≠ '\n' := fun hx => hn (hx ▸ List.mem_cons_self _ _)
    have hcr : c ≠ '\r' := fun hx => hr (hx ▸ List.mem_cons_self _ _)
    have ih := rustLines_append l2 (fun hx => hn (List.mem_cons_of_mem _ hx))
      (fun hx => hr (List.mem_cons_of_mem _ hx)) rest
    rcases hl : l2 ++ '\n' :: rest with _ | ⟨d, rest3⟩
    · exact absurd hl (List.append_ne_nil_of_right_ne_nil _ (List.cons_ne_nil _ _))
    · show rustLines (c :: (l2 ++ '\n' :: rest)) = (c :: l2) :: rustLines rest
      rw [hl, rustLines, if_neg hc, if_neg (fun hp => hcr hp.1), ← hl, ih]
      rfl

theorem rustLines_joinNl : ∀ L : List Str,
    (∀ l ∈ L, l ≠ [] ∧ '\n' ∉ l ∧ '\r' ∉ l) → rustLines (joinNl L) = L
  | [], _ => rfl
  | [l], h => by
    simp only [joinNl]
    exact rustLines_single l (h l (List.mem_singleton.mpr rfl)).1
      (h l (List.mem_singleton.mpr rfl)).2.1
  | l :: l2 :: rest, h => by
    have hl := h l (List.mem_cons_self _ _)
    show rustLines (l ++ '\n' :: joinNl (l2 :: rest)) = l :: l2 :: rest
    rw [rustLines_append l hl.2.1 hl.2.2 (joinNl (l2 :: rest))]
    rw [rustLines_joinNl (l2 :: rest) (fun m hm => h m (List.mem_cons_of_mem _ hm))]

theorem rustLines_head_nl : ∀ s : Str, '\r' ∉ s → ∀ ms : List Str,
    rustLines s = [] :: ms → s.head? = some '\n'
  | [], _, ms, h => by simp [rustLines] at h
  | [c], _, ms, h => by
    simp only [rustLines] at h
    by_cases hc : c = '\n'
    · rw [hc]; rfl
    · rw [if_neg hc] at h
      injection h with h1 _
      exact absurd h1 (List.cons_ne_nil _ _)
  | c :: d :: rest, hr, ms, h => by
    by_cases h0 : c = '\n'
    · rw [h0]; rfl
    · have h1 : ¬(c = '\r' ∧ d = '\n') :=
        fun hp => hr (hp.1 ▸ List.mem_cons_self _ _)
      rw [rustLines, if_neg h0, if_neg h1] at h
      rcases hM : rustLines (d :: rest) with _ | ⟨m, ms2⟩
      · rw [hM] at h
        injection h with h2 _
        exact absurd h2 (List.cons_ne_nil _ _)
      · rw [hM] at h
        injection h with h2 _
        exact absurd h2 (List.cons_ne_nil _ _)

theorem properLines_rustLines : ∀ s : Str, NoPair ' ' '\n' s → '\r' ∉ s →
    properLines (rustLines s)
  | [], _, _ => trivial
  | [c], _, _ => by
    simp only [rustLines]
    by_cases hc : c = '\n'
    · rw [if_pos hc]; trivial
    · rw [if_neg hc]; trivial
  | c :: d :: rest, h, hr => by
    have hrtail : '\r' ∉ d :: rest := fun hx => hr (List.mem_cons_of_mem _ hx)
    by_cases h0 : c = '\n'
    · rw [rustLines, if_pos h0]
      rcases hM : rustLines (d :: rest) with _ | ⟨m, ms⟩
      · trivial
      · show properLines ([] :: m :: ms)
        refine ⟨by simp, ?_⟩
        have hp := properLines_rustLines (d :: rest) h.tail hrtail
        rw [hM] at hp
        exact hp
    · have h1 : ¬(c = '\r' ∧ d = '\n') :=
        fun hp => hr (hp.1 ▸ List.mem_cons_self _ _)
      rw [rustLines, if_neg h0, if_neg h1]
      rcases hM : rustLines (d :: rest) with _ | ⟨m, ms⟩
      · trivial
      · show properLines ((c :: m) :: ms)
        cases ms with
        | nil => trivial
        | cons m2 ms2 =>
          have hp := properLines_rustLines (d :: rest) h.tail hrtail
          rw [hM] at hp
          obtain ⟨hml, hrest⟩ := hp
          refine ⟨?_, hrest⟩
          cases m with
          | nil =>
            have hd : (d :: rest).head? = some '\n' :=
              rustLines_head_nl (d :: rest) hrtail (m2 :: ms2) hM
            have hdn : d = '\n' := by
              rw [List.head?_cons] at hd
              injection hd
            have hcs : c ≠ ' ' := fun hcs => (List.chain'_cons.mp h).1 ⟨hcs, hdn⟩
            simp only [List.getLast?_singleton, ne_eq, Option.some.injEq]
            exact hcs
          | cons m0 m1 =>
            rw [List.getLast?_cons_cons]
            exact hml

theorem properLines_filter (p : Str → Bool) : ∀ L : List Str,
    properLines L → properLines (L.filter p)
  | [], _ => trivial
  | [l], _ => by
    by_cases hp : p l
    · simp only [List.filter, hp]; trivial
    · simp only [List.filter]
      rw [Bool.not_eq_true] at hp
      rw [hp]; trivial
  | l :: l2 :: rest, h => by
    obtain ⟨hl, h2⟩ := h
    by_cases hp : p l
    · rw [List.filter_cons_of_pos hp]
      rcases hF : (l2 :: rest).filter p with _ | ⟨m, ms⟩
      · trivial
      · have hpf := properLines_filter p (l2 :: rest) h2
        rw [hF] at hpf
        exact ⟨hl, hpf⟩
    · rw [List.filter_cons_of_neg (by simpa using hp)]
      exact properLines_filter p (l2 :: rest) h2

theorem mem_of_headOpt {y : Char} {l : Str} (h : y ∈ l.head?) : y ∈ l := by
  cases l with
  | nil => exact absurd h (by simp)
  | cons c cl =>
    rw [List.head?_cons] at h
    obtain rfl := (Option.mem_some_iff.mp h).symm
    exact List.mem_cons_self _ _

theorem headOpt_joinNl : ∀ (l : Str) (ls : List Str), l ≠ [] →
    (joinNl (l :: ls)).head? = l.head?
  | _, [], _ => rfl
  | l, l2 :: rest, hne => by
    show (l ++ '\n' :: joinNl (l2 :: rest)).head? = l.head?
    cases l with
    | nil => exact absurd rfl hne
    | cons c cl => rfl

theorem noPair_joinNl_nl : ∀ L : List Str, (∀ l ∈ L, l ≠ [] ∧ '\n' ∉ l) →
    NoPair '\n' '\n' (joinNl L)
  | [], _ => List.chain'_nil
  | [l], h => noPair_of_not_mem _ _ l (h l (List.mem_singleton.mpr rfl)).2
  | l :: l2 :: rest, h => by
    have hl := h l (List.mem_cons_self _ _)
    have hl2 := h l2 (List.mem_cons_of_mem _ (List.mem_cons_self _ _))
    show NoPair '\n' '\n' (l ++ '\n' :: joinNl (l2 :: rest))
    refine List.chain'_append.mpr ⟨noPair_of_not_mem _ _ l hl.2, ?_, ?_⟩
    · refine List.chain'_cons'.mpr ⟨?_,
        noPair_joinNl_nl (l2 :: rest) (fun m hm => h m (List.mem_cons_of_mem _ hm))⟩
      intro y hy
      rintro ⟨-, rfl⟩
      rw [headOpt_joinNl l2 rest hl2.1] at hy
      exact hl2.2 (mem_of_headOpt hy)
    · intro x hx y _
      rintro ⟨rfl, -⟩
      exact hl.2 (mem_of_getLastOpt hx)

theorem noPair_joinNl_of_ne_nl (a b : Char) (ha : a ≠ '\n') (hb : b ≠ '\n') :
    ∀ L : List Str, (∀ l ∈ L, NoPair a b l) → NoPair a b (joinNl L)
  | [], _ => List.chain'_nil
  | [l], h => h l (List.mem_singleton.mpr rfl)
  | l :: l2 :: rest, h => by
    show NoPair a b (l ++ '\n' :: joinNl (l2 :: rest))
    refine List.chain'_append.mpr ⟨h l (List.mem_cons_self _ _), ?_, ?_⟩
    · refine List.chain'_cons'.mpr ⟨?_,
        noPair_joinNl_of_ne_nl a b ha hb (l2 :: rest)
          (fun m hm => h m (List.mem_cons_of_mem _ hm))⟩
      intro y _
      rintro ⟨h1, -⟩
      exact ha h1.symm
    · intro x _ y hy
      rintro ⟨-, h2⟩
      rw [List.head?_cons] at hy
      have hyn : '\n' = y := Option.mem_some_iff.mp hy
      exact hb (h2 ▸ hyn).symm

theorem noPair_joinNl_spNl : ∀ L : List Str, (∀ l ∈ L, '\n' ∉ l) → properLines L →
    NoPair ' ' '\n' (joinNl L)
  | [], _, _ => List.chain'_nil
  | [l], h, _ => noPair_of_not_mem _ _ l (h l (List.mem_singleton.mpr rfl))
  | l :: l2 :: rest, h, hp => by
    obtain ⟨hlast, hp2⟩ := hp
    show NoPair ' ' '\n' (l ++ '\n' :: joinNl (l2 :: rest))
    refine List.chain'_append.mpr
      ⟨noPair_of_not_mem _ _ l (h l (List.mem_cons_self _ _)), ?_, ?_⟩
    · refine List.chain'_cons'.mpr ⟨?_,
        noPair_joinNl_spNl (l2 :: rest)
          (fun m hm => h m (List.mem_cons_of_mem _ hm)) hp2⟩
      intro y _
      rintro ⟨h1, -⟩
      exact absurd h1 (by decide)
    · intro x hx y _
      rintro ⟨rfl, -⟩
      exact hlast (Option.mem_def.mp hx)

theorem textNormalize_fixed (t : Str)
    (h1 : NoPair '\n' '\n' t) (h2 : NoPair ' ' ' ' t) (h3 : NoPair ' ' '\n' t)
    (h4 : ∀ l ∈ rustLines t, (!(rustTrim l).isEmpty) = true)
    (h5 : joinNl (rustLines t) = t) :
    textNormalize t = t := by
  show remove_empty_lines (remove_excessive_whitespace t) = t
  rw [remove_excessive_whitespace, collapsePair_eq_self '\n' t h1,
    collapsePair_eq_self ' ' t h2, dropSpacesBeforeNl_eq_self t h3,
    remove_empty_lines, List.filter_eq_self.mpr h4, h5]

theorem textNormalize_fixed_point (W : Str) (hWr : '\r' ∉ W)
    (hWss : NoPair ' ' ' ' W) (hWsn : NoPair ' ' '\n' W) :
    textNormalize (remove_empty_lines W) = remove_empty_lines W := by
  have hLmem : ∀ l ∈ (rustLines W).filter (fun l => !(rustTrim l).isEmpty),
      l ∈ rustLines W := fun l hl => List.mem_of_mem_filter hl
  have hLp : ∀ l ∈ (rustLines W).filter (fun l => !(rustTrim l).isEmpty),
      (!(rustTrim l).isEmpty) = true := fun l hl => (List.mem_filter.mp hl).2
  have hLnl : ∀ l ∈ (rustLines W).filter (fun l => !(rustTrim l).isEmpty),
      '\n' ∉ l := fun l hl => nl_not_mem_rustLines W l (hLmem l hl)
  have hLcr : ∀ l ∈ (rustLines W).filter (fun l => !(rustTrim l).isEmpty),
      '\r' ∉ l := fun l hl hx =>
    hWr (mem_of_mem_rustLines W l (hLmem l hl) '\r' hx)
  have hLne : ∀ l ∈ (rustLines W).filter (fun l => !(rustTrim l).isEmpty),
      l ≠ [] := by
    intro l hl hnil
    have hplt := hLp l hl
    rw [hnil] at hplt
    exact absurd hplt (by decide)
  have hLss : ∀ l ∈ (rustLines W).filter (fun l => !(rustTrim l).isEmpty),
      NoPair ' ' ' ' l := fun l hl => noPair_rustLines _ _ W hWss l (hLmem l hl)
  have hLproper : properLines ((rustLines W).filter (fun l => !(rustTrim l).isEmpty)) :=
    properLines_filter _ _ (properLines_rustLines W hWsn hWr)
  have hlines : rustLines (joinNl ((rustLines W).filter (fun l => !(rustTrim l).isEmpty)))
      = (rustLines W).filter (fun l => !(rustTrim l).isEmpty) :=
    rustLines_joinNl _ (fun l hl => ⟨hLne l hl, hLnl l hl, hLcr l hl⟩)
  show textNormalize (joinNl ((rustLines W).filter (fun l => !(rustTrim l).isEmpty)))
      = joinNl ((rustLines W).filter (fun l => !(rustTrim l).isEmpty))
  refine textNormalize_fixed _ ?_ ?_ ?_ ?_ ?_
  · exact noPair_joinNl_nl _ (fun l hl => ⟨hLne l hl, hLnl l hl⟩)
  · exact noPair_joinNl_of_ne_nl ' ' ' ' (by decide) (by decide) _ hLss
  · exact noPair_joinNl_spNl _ hLnl hLproper
  · rw [hlines]; exact hLp
  · rw [hlines]

/-- C5 (amended): the composed TextNormalizer is idempotent on every
input that contains no carriage return: applying it to its own output
returns that output unchanged. -/
theorem C5_normalizer_idempotent_no_cr (s : Str) (hr : '\r' ∉ s) :
    textNormalize (textNormalize s) = textNormalize s := by
  have hWr : '\r' ∉ remove_excessive_whitespace s :=
    fun hx => hr (mem_remove_excessive_whitespace hx)
  have hWss : NoPair ' ' ' ' (remove_excessive_whitespace s) :=
    noPair_spSp_dropSpacesBeforeNl _ (noPair_collapsePair ' ' _)
  have hWsn : NoPair ' ' '\n' (remove_excessive_whitespace s) :=
    noPair_spNl_dropSpacesBeforeNl _
  show textNormalize (remove_empty_lines (remove_excessive_whitespace s))
      = remove_empty_lines (remove_excessive_whitespace s)
  exact textNormalize_fixed_point _ hWr hWss hWsn

/-- Witness for C5: a concrete carriage-return-free input on which the
normalizer is idempotent. -/
theorem C5_witness :
    '\r' ∉ str "a  b\n\n\n c \nd" ∧
    textNormalize (textNormalize (str "a  b\n\n\n c \nd")) =
      textNormalize (str "a  b\n\n\n c \nd") :=
  ⟨by decide, C5_normalizer_idempotent_no_cr (str "a  b\n\n\n c \nd") (by decide)⟩

/-- C5 counterexample: on the input a CR CR NL b the normalizer is not
idempotent; Rust str::lines strips one carriage return before the
newline per pass, so the first pass yields a CR NL b and the second
yields a NL b. -/
theorem C5_counterexample :
    textNormalize (textNormalize (str "a\r\r\nb")) ≠ textNormalize (str "a\r\r\nb") := by
  decide

/-! ## Header compaction proofs -/

theorem hashes_length : ∀ k : Nat, (hashes k).length = k
  | 0 => rfl
  | k + 1 => by simp [hashes, hashes_length k]

theorem mem_hashes : ∀ k : Nat, ∀ c ∈ hashes k, c = '#'
  | 0, c, h => absurd h (List.not_mem_nil c)
  | k + 1, c, h => by
    rcases List.mem_cons.mp h with h1 | h2
    · exact h1
    · exact mem_hashes k c h2

theorem matchHeaderLevel_none_of_nl (k : Nat) (s : Str) (h : '\n' ∈ s) :
    matchHeaderLevel k s = none := by
  unfold matchHeaderLevel
  by_cases hp : (hashes k ++ [' ']).isPrefixOf s
  · rw [if_pos hp]
    obtain ⟨u, hu⟩ := List.isPrefixOf_iff_prefix.mp hp
    have hlen : (hashes k ++ [' ']).length = k + 1 := by simp [hashes_length]
    have hd : s.drop (k + 1) = u := by
      rw [← hu, ← hlen, List.drop_left]
    have hnu : '\n' ∈ u := by
      rw [← hu] at h
      rcases List.mem_append.mp h with h1 | h2
      · exfalso
        rcases List.mem_append.mp h1 with h3 | h4
        · exact absurd (mem_hashes k _ h3) (by decide)
        · exact absurd (List.mem_singleton.mp h4) (by decide)
      · exact h2
    rw [if_neg (fun hc => hc.2 (hd ▸ hnu))]
  · rw [if_neg hp]

theorem replaceHeaderLevel_of_nl (k : Nat) (s : Str) (h : '\n' ∈ s) :
    replaceHeaderLevel k s = s := by
  rw [replaceHeaderLevel, matchHeaderLevel_none_of_nl k s h]

theorem replaceHeaderLevel_no (j : Nat) (s : Str)
    (h : ¬(hashes j ++ [' ']) <+: s) : replaceHeaderLevel j s = s := by
  rw [replaceHeaderLevel, matchHeaderLevel,
    if_neg (fun hp => h (List.isPrefixOf_iff_prefix.mp hp))]

theorem replaceHeaderLevel_yes (j : Nat) (txt : Str) (hne : txt ≠ [])
    (hnl : '\n' ∉ txt) :
    replaceHeaderLevel j (hashes j ++ ' ' :: txt) = headerMark j ++ txt := by
  have hsplit : hashes j ++ ' ' :: txt = (hashes j ++ [' ']) ++ txt := by simp
  have hp : (hashes j ++ [' ']).isPrefixOf (hashes j ++ ' ' :: txt) :=
    List.isPrefixOf_iff_prefix.mpr ⟨txt, by simp⟩
  have hlen : (hashes j ++ [' ']).length = j + 1 := by simp [hashes_length]
  have hd : (hashes j ++ ' ' :: txt).drop (j + 1) = txt := by
    rw [hsplit, ← hlen, List.drop_left]
  rw [replaceHeaderLevel, matchHeaderLevel, if_pos hp, hd, if_pos ⟨hne, hnl⟩]

theorem not_pre_hashes : ∀ j k : Nat, j < k → ∀ txt : Str,
    ¬(hashes j ++ [' ']) <+: (hashes k ++ ' ' :: txt)
  | 0, k + 1, _, txt => by
    rintro ⟨u, hu⟩
    simp only [hashes, List.nil_append, List.singleton_append, List.cons_append] at hu
    exact absurd (List.head_eq_of_cons_eq hu) (by decide)
  | j + 1, k + 1, hlt, txt => by
    rintro ⟨u, hu⟩
    simp only [hashes, List.cons_append] at hu
    exact not_pre_hashes j k (Nat.lt_of_succ_lt_succ hlt) txt
      ⟨u, List.tail_eq_of_cons_eq hu⟩

theorem replaceHeaderLevel_H (j : Nat) (hj : j ≠ 0) (rest : Str) :
    replaceHeaderLevel j ('H' :: rest) = 'H' :: rest := by
  cases j with
  | zero => exact absurd rfl hj
  | succ j =>
    refine replaceHeaderLevel_no (j + 1) _ ?_
    rintro ⟨u, hu⟩
    simp only [hashes, List.cons_append] at hu
    exact absurd (List.head_eq_of_cons_eq hu) (by decide)

/-- C3 (amended): the four header regexes are anchored to the whole
haystack (no multiline flag), so a header line is rewritten to
H-level-colon form only when it constitutes the entire content: any
content containing a newline passes through unchanged, a whole-content
header of level 1 to 4 is rewritten with the markdown marker removed
and no space after the colon, the whole-content line Setup Guide at
level 2 becomes H2:Setup Guide, and a line with five hash marks is left
unchanged. -/
theorem C3_header_compaction :
    (∀ s : Str, '\n' ∈ s → compress_headers_aggressively s = s) ∧
    (∀ txt : Str, txt ≠ [] → '\n' ∉ txt →
      compress_headers_aggressively (hashes 1 ++ ' ' :: txt) = headerMark 1 ++ txt) ∧
    (∀ txt : Str, txt ≠ [] → '\n' ∉ txt →
      compress_headers_aggressively (hashes 2 ++ ' ' :: txt) = headerMark 2 ++ txt) ∧
    (∀ txt : Str, txt ≠ [] → '\n' ∉ txt →
      compress_headers_aggressively (hashes 3 ++ ' ' :: txt) = headerMark 3 ++ txt) ∧
    (∀ txt : Str, txt ≠ [] → '\n' ∉ txt →
      compress_headers_aggressively (hashes 4 ++ ' ' :: txt) = headerMark 4 ++ txt) ∧
    compress_headers_aggressively (str "## Setup Guide") = str "H2:Setup Guide" ∧
    compress_headers_aggressively (str "##### Too Deep") = str "##### Too Deep" := by
  refine ⟨?_, ?_, ?_, ?_, ?_, by decide, by decide⟩
  · intro s h
    unfold compress_headers_aggressively
    rw [replaceHeaderLevel_of_nl 1 s h, replaceHeaderLevel_of_nl 2 s h,
      replaceHeaderLevel_of_nl 3 s h, replaceHeaderLevel_of_nl 4 s h]
  · intro txt hne hnl
    unfold compress_headers_aggressively
    rw [replaceHeaderLevel_yes 1 txt hne hnl]
    have h1 : headerMark 1 ++ txt = 'H' :: ('1' :: ':' :: txt) := rfl
    rw [h1, replaceHeaderLevel_H 2 (by decide) _, replaceHeaderLevel_H 3 (by decide) _,
      replaceHeaderLevel_H 4 (by decide) _]
  · intro txt hne hnl
    unfold compress_headers_aggressively
    rw [replaceHeaderLevel_no 1 _ (not_pre_hashes 1 2 (by decide) txt),
      replaceHeaderLevel_yes 2 txt hne hnl]
    have h2 : headerMark 2 ++ txt = 'H' :: ('2' :: ':' :: txt) := rfl
    rw [h2, replaceHeaderLevel_H 3 (by decide) _, replaceHeaderLevel_H 4 (by decide) _]
  · intro txt hne hnl
    unfold compress_headers_aggressively
    rw [replaceHeaderLevel_no 1 _ (not_pre_hashes 1 3 (by decide) txt),
      replaceHeaderLevel_no 2 _ (not_pre_hashes 2 3 (by decide) txt),
      replaceHeaderLevel_yes 3 txt hne hnl]
    have h3 : headerMark 3 ++ txt = 'H' :: ('3' :: ':' :: txt) := rfl
    rw [h3, replaceHeaderLevel_H 4 (by decide) _]
  · intro txt hne hnl
    unfold compress_headers_aggressively
    rw [replaceHeaderLevel_no 1 _ (not_pre_hashes 1 4 (by decide) txt),
      replaceHeaderLevel_no 2 _ (not_pre_hashes 2 4 (by decide) txt),
      replaceHeaderLevel_no 3 _ (not_pre_hashes 3 4 (by decide) txt),
      replaceHeaderLevel_yes 4 txt hne hnl]

/-- Witness for C3: the universally quantified conjuncts instantiated on
concrete inputs. -/
theorem C3_witness :
    compress_headers_aggressively (str "a\n# b") = str "a\n# b" ∧
    compress_headers_aggressively (hashes 1 ++ ' ' :: str "Top") =
      headerMark 1 ++ str "Top" :=
  ⟨C3_header_compaction.1 (str "a\n# b") (by decide),
   C3_header_compaction.2.1 (str "Top") (by decide) (by decide)⟩

/-- C3 counterexample: the header line Setup Guide occurring after
another line of the document is not rewritten, refuting the claim that
the rewrite happens regardless of where the header line occurs. -/
theorem C3_counterexample :
    compress_headers_aggressively (str "x\n## Setup Guide") = str "x\n## Setup Guide" ∧
    compress_headers_aggressively (str "x\n## Setup Guide") ≠ str "x\nH2:Setup Guide" := by
  constructor
  · decide
  · decide

/-! ## Code-block compaction proofs -/

theorem occurs_of_isPre {pat s : Str} (h : pat.isPrefixOf s = true) :
    occurs pat s = true := by
  cases s with
  | nil => simpa [occurs] using h
  | cons c rest => simp [occurs, h]

theorem occurs_cons_false {pat : Str} {c : Char} {s : Str}
    (h : occurs pat (c :: s) = false) :
    pat.isPrefixOf (c :: s) = false ∧ occurs pat s = false := by
  rw [occurs, Bool.or_eq_false_iff] at h
  exact h

theorem isPre_window {pat w z z2 : Str} (hw : w ≠ [])
    (hz : z.take (pat.length - 1) = z2.take (pat.length - 1))
    (h : pat <+: (w ++ z)) : pat <+: (w ++ z2) := by
  rw [List.prefix_iff_eq_take] at h ⊢
  rw [List.take_append_eq_append_take] at h ⊢
  have hwpos : 1 ≤ w.length := List.length_pos.mpr hw
  have hle : pat.length - w.length ≤ pat.length - 1 := by omega
  have htz : z.take (pat.length - w.length) = z2.take (pat.length - w.length) := by
    have h1 : z.take (pat.length - w.length) =
        (z.take (pat.length - 1)).take (pat.length - w.length) := by
      rw [List.take_take, Nat.min_eq_left hle]
    have h2 : z2.take (pat.length - w.length) =
        (z2.take (pat.length - 1)).take (pat.length - w.length) := by
      rw [List.take_take, Nat.min_eq_left hle]
    rw [h1, h2, hz]
  calc pat = w.take pat.length ++ z.take (pat.length - w.length) := h
    _ = w.take pat.length ++ z2.take (pat.length - w.length) := by rw [htz]

theorem fence_eq_cons : fence = '\x60' :: '\x60' :: '\x60' :: [] := rfl

theorem fence_take2 (post : Str) :
    (fence ++ post).take (fence.length - 1) = ['\x60', '\x60'] := rfl

theorem not_isPre_fence_of_occurs_false {w : Str} {v : Str} (hw : w ≠ [])
    (h : occurs fence (w ++ ['\x60', '\x60']) = false) :
    fence.isPrefixOf (w ++ (fence ++ v)) = false := by
  by_contra hcon
  rw [Bool.not_eq_false] at hcon
  have hpre : fence <+: (w ++ (fence ++ v)) := List.isPrefixOf_iff_prefix.mp hcon
  have hpre2 : fence <+: (w ++ ['\x60', '\x60']) :=
    isPre_window hw (by rw [fence_take2]; rfl) hpre
  have : occurs fence (w ++ ['\x60', '\x60']) = true := by
    cases w with
    | nil => exact absurd rfl hw
    | cons c rest =>
      exact occurs_of_isPre (List.isPrefixOf_iff_prefix.mpr hpre2)
  rw [this] at h
  simp at h

theorem findClose_append : ∀ body post : Str,
    occurs fence (body ++ ['\x60', '\x60']) = false →
    findClose (body ++ (fence ++ post)) = some (body, post)
  | [], post, _ => by
    show findClose (fence ++ post) = some ([], post)
    rw [fence_eq_cons]
    show findClose ('\x60' :: ('\x60' :: '\x60' :: post)) = some ([], post)
    rw [findClose]
    have hp : fence.isPrefixOf ('\x60' :: '\x60' :: '\x60' :: post) = true := by
      refine List.isPrefixOf_iff_prefix.mpr ⟨post, ?_⟩
      rw [fence_eq_cons]; rfl
    rw [if_pos hp]
    rfl
  | c :: body2, post, h => by
    have hsplit : (c :: body2) ++ ['\x60', '\x60'] = c :: (body2 ++ ['\x60', '\x60']) := rfl
    rw [hsplit] at h
    have hparts := occurs_cons_false h
    have hnp : fence.isPrefixOf ((c :: body2) ++ (fence ++ post)) = false :=
      not_isPre_fence_of_occurs_false (List.cons_ne_nil _ _) (hsplit ▸ h)
    show findClose (c :: (body2 ++ (fence ++ post))) = some (c :: body2, post)
    rw [findClose]
    have hnp2 : ¬(fence.isPrefixOf (c :: (body2 ++ (fence ++ post))) = true) := by
      rw [show c :: (body2 ++ (fence ++ post)) = (c :: body2) ++ (fence ++ post) from rfl,
        hnp]
      simp
    rw [if_neg hnp2]
    rw [findClose_append body2 post hparts.2]

theorem takeWhile_all_append (p : Char → Bool) : ∀ (l : Str) (x : Char) (r : Str),
    (∀ c ∈ l, p c = true) → p x = false →
    (l ++ x :: r).takeWhile p = l ∧ (l ++ x :: r).dropWhile p = x :: r
  | [], x, r, _, hx => by
    constructor
    · show (x :: r).takeWhile p = []
      exact List.takeWhile_cons_of_neg (by simp [hx])
    · show (x :: r).dropWhile p = x :: r
      exact List.dropWhile_cons_of_neg (by simp [hx])
  | c :: l2, x, r, hall, hx => by
    have hc : p c = true := hall c (List.mem_cons_self _ _)
    have ih := takeWhile_all_append p l2 x r
      (fun d hd => hall d (List.mem_cons_of_mem _ hd)) hx
    constructor
    · show (c :: (l2 ++ x :: r)).takeWhile p = c :: l2
      rw [List.takeWhile_cons_of_pos hc, ih.1]
    · show (c :: (l2 ++ x :: r)).dropWhile p = x :: r
      rw [List.dropWhile_cons_of_pos hc, ih.2]

theorem tryFence_match (lang body post : Str)
    (hlang : ∀ c ∈ lang, isWordChar c = true)
    (hbody : occurs fence (body ++ ['\x60', '\x60']) = false) :
    tryFence (fence ++ (lang ++ '\n' :: (body ++ (fence ++ post)))) =
      some (lang, body, post) := by
  have hp : fence.isPrefixOf (fence ++ (lang ++ '\n' :: (body ++ (fence ++ post)))) = true :=
    List.isPrefixOf_iff_prefix.mpr ⟨_, rfl⟩
  have hdrop : (fence ++ (lang ++ '\n' :: (body ++ (fence ++ post)))).drop 3 =
      lang ++ '\n' :: (body ++ (fence ++ post)) := by
    rw [show (3 : Nat) = fence.length from rfl, List.drop_left]
  have htw := takeWhile_all_append isWordChar lang '\n' (body ++ (fence ++ post))
    hlang (by decide)
  unfold tryFence
  rw [hdrop, htw.1, htw.2]
  rw [if_pos ⟨hp, by rw [List.head?_cons]⟩]
  rw [List.tail_cons, findClose_append body post hbody]

theorem findClose_len : ∀ u b a : Str, findClose u = some (b, a) → a.length ≤ u.length
  | [], b, a, h => by simp [findClose] at h
  | c :: rest, b, a, h => by
    rw [findClose] at h
    split at h
    · injection h with h1
      have ha : a = (c :: rest).drop 3 := (congrArg Prod.snd h1).symm
      rw [ha, List.length_drop]
      omega
    · split at h
      · next b2 a2 heq =>
        injection h with h1
        have ha : a2 = a := congrArg Prod.snd h1
        have hlen := findClose_len rest b2 a2 heq
        rw [← ha]
        simp only [List.length_cons]
        omega
      · exact Option.noConfusion h

theorem tryFence_after_len : ∀ s lang body after : Str,
    tryFence s = some (lang, body, after) → after.length < s.length := by
  intro s lang body after h
  unfold tryFence at h
  split at h
  · next hcond =>
    obtain ⟨hp, hnl⟩ := hcond
    split at h
    · next b2 a2 heq =>
      injection h with h1
      have ha : a2 = after := congrArg (fun p => p.2.2) h1
      have hlen := findClose_len _ b2 a2 heq
      have h3 : ((s.drop 3).dropWhile isWordChar).tail.length ≤ s.length - 3 := by
        have hd1 : ((s.drop 3).dropWhile isWordChar).length ≤ (s.drop 3).length :=
          (List.dropWhile_sublist _).length_le
        have hd2 : ((s.drop 3).dropWhile isWordChar).tail.length ≤
            ((s.drop 3).dropWhile isWordChar).length := by
          rw [List.length_tail]; omega
        rw [List.length_drop] at hd1
        omega
      have hs3 : 3 ≤ s.length := by
        obtain ⟨u, hu⟩ := List.isPrefixOf_iff_prefix.mp hp
        have hlen2 := congrArg List.length hu
        rw [List.length_append, show fence.length = 3 from rfl] at hlen2
        omega
      subst ha
      omega
    · exact Option.noConfusion h
  · exact Option.noConfusion h

theorem ccb_go_fuel (model : Str) : ∀ f : Nat, ∀ s : Str, s.length ≤ f →
    compress_code_blocks_go model f s = compress_code_blocks_go model s.length s := by
  intro f
  induction f using Nat.strong_induction_on with
  | _ f ih =>
    intro s hs
    cases s with
    | nil =>
      cases f with
      | zero => rfl
      | succ f2 => simp [compress_code_blocks_go]
    | cons c rest =>
      cases f with
      | zero => simp at hs
      | succ f2 =>
        have hrest : rest.length ≤ f2 := by simpa using hs
        show compress_code_blocks_go model (f2 + 1) (c :: rest) =
          compress_code_blocks_go model (rest.length + 1) (c :: rest)
        rw [compress_code_blocks_go, compress_code_blocks_go]
        rcases htf : tryFence (c :: rest) with _ | ⟨lang, body, after⟩
        · dsimp only
          rw [ih f2 (Nat.lt_succ_self f2) rest hrest]
        · dsimp only
          have hafter : after.length < rest.length + 1 := tryFence_after_len _ _ _ _ htf
          rw [ih f2 (Nat.lt_succ_self f2) after (by omega),
            ih rest.length (by omega) after (by omega)]

theorem tryFence_none_of_no_fence {s : Str} (h : fence.isPrefixOf s = false) :
    tryFence s = none := by
  unfold tryFence
  split
  · next hc => rw [h] at hc; exact absurd hc.1 (by simp)
  · rfl

theorem ccb_go_some (model : Str) (f : Nat) (c : Char) (rest : Str)
    (lang body after : Str)
    (h : tryFence (c :: rest) = some (lang, body, after)) :
    compress_code_blocks_go model (f + 1) (c :: rest) =
      codeBlockRepl model lang body ++ compress_code_blocks_go model f after := by
  rw [compress_code_blocks_go, h]

theorem compress_code_blocks_none_step (model : Str) (c : Char) (rest : Str)
    (h : tryFence (c :: rest) = none) :
    compress_code_blocks (c :: rest) model = c :: compress_code_blocks rest model := by
  show compress_code_blocks_go model (c :: rest).length (c :: rest) = _
  rw [show (c :: rest).length = rest.length + 1 from rfl, compress_code_blocks_go, h]
  rfl

theorem compress_code_blocks_fence_step (model lang body post : Str)
    (hlang : ∀ c ∈ lang, isWordChar c = true)
    (hbody : occurs fence (body ++ ['\x60', '\x60']) = false) :
    compress_code_blocks (fence ++ (lang ++ '\n' :: (body ++ (fence ++ post)))) model =
      codeBlockRepl model lang body ++ compress_code_blocks post model := by
  have htf := tryFence_match lang body post hlang hbody
  have hmain := ccb_go_some model
    ((lang ++ '\n' :: (body ++ (fence ++ post))).length + 2) '\x60'
    ('\x60' :: '\x60' :: (lang ++ '\n' :: (body ++ (fence ++ post))))
    lang body post htf
  have hpostlen : post.length ≤ (lang ++ '\n' :: (body ++ (fence ++ post))).length + 2 := by
    simp only [List.length_append, List.length_cons]
    omega
  rw [ccb_go_fuel model _ post hpostlen] at hmain
  exact hmain

theorem compress_code_blocks_block (model : Str) : ∀ (pre lang body post : Str),
    occurs fence (pre ++ ['\x60', '\x60']) = false →
    (∀ c ∈ lang, isWordChar c = true) →
    occurs fence (body ++ ['\x60', '\x60']) = false →
    compress_code_blocks
        (pre ++ (fence ++ (lang ++ '\n' :: (body ++ (fence ++ post))))) model =
      pre ++ codeBlockRepl model lang body ++ compress_code_blocks post model
  | [], lang, body, post, _, hlang, hbody => by
    simpa using compress_code_blocks_fence_step model lang body post hlang hbody
  | c :: pre2, lang, body, post, hpre, hlang, hbody => by
    have hparts := occurs_cons_false
      (show occurs fence (c :: (pre2 ++ ['\x60', '\x60'])) = false from hpre)
    have hnofence : fence.isPrefixOf
        (c :: (pre2 ++ (fence ++ (lang ++ '\n' :: (body ++ (fence ++ post)))))) = false :=
      not_isPre_fence_of_occurs_false (List.cons_ne_nil _ _) hpre
    have htf := tryFence_none_of_no_fence hnofence
    show compress_code_blocks
        (c :: (pre2 ++ (fence ++ (lang ++ '\n' :: (body ++ (fence ++ post)))))) model = _
    rw [compress_code_blocks_none_step model c _ htf,
      compress_code_blocks_block model pre2 lang body post hparts.2 hlang hbody]
    rfl

/-- C7: a fenced code block with optional word-character language tag is
replaced by the model-dependent compact form produced by
compress_code_blocks: in general the text before the block is kept, the
block becomes its replacement and scanning continues after it; the
js example compresses for a non-copilot target to
CODE(js):const x = 1;|return x; and for the copilot target the language
is uppercased and the join token is a spaced bar. -/
theorem C7_code_block_compaction :
    (∀ model pre lang body post : Str,
      occurs fence (pre ++ ['\x60', '\x60']) = false →
      (∀ c ∈ lang, isWordChar c = true) →
      occurs fence (body ++ ['\x60', '\x60']) = false →
      compress_code_blocks
          (pre ++ (fence ++ (lang ++ '\n' :: (body ++ (fence ++ post))))) model =
        pre ++ codeBlockRepl model lang body ++ compress_code_blocks post model) ∧
    compress_code_blocks (str "\x60\x60\x60js\nconst x = 1;\nreturn x;\n\x60\x60\x60")
      (str "claude") = str "CODE(js):const x = 1;|return x;" ∧
    compress_code_blocks (str "\x60\x60\x60js\nconst x = 1;\nreturn x;\n\x60\x60\x60")
      (str "copilot") = str "JS:const x = 1; | return x;" ∧
    compress_code_blocks (str "\x60\x60\x60\nfoo\n\nbar\n\x60\x60\x60")
      (str "claude") = str "CODE:foo|bar" := by
  refine ⟨?_, by decide, by decide, by decide⟩
  intro model pre lang body post h1 h2 h3
  exact compress_code_blocks_block model pre lang body post h1 h2 h3

/-- Witness for C7: the general conjunct instantiated on a concrete
document with surrounding text. -/
theorem C7_witness :
    compress_code_blocks
        ((str "intro ") ++ (fence ++ ((str "py") ++ '\n' ::
          ((str "x = 1") ++ (fence ++ (str " done")))))) (str "gpt") =
      (str "intro ") ++ codeBlockRepl (str "gpt") (str "py") (str "x = 1") ++
        compress_code_blocks (str " done") (str "gpt") :=
  C7_code_block_compaction.1 (str "gpt") (str "intro ") (str "py") (str "x = 1")
    (str " done") (by decide) (by decide) (by decide)

/-! ## Tag extraction proofs -/

theorem collect_fold_nodup (lower : Str) : ∀ (ps : List (Str × Str)) (acc : List Str),
    acc.Nodup →
    (ps.foldl
      (fun acc pt =>
        if occurs pt.1 lower then (if pt.2 ∈ acc then acc else acc ++ [pt.2]) else acc)
      acc).Nodup
  | [], acc, h => h
  | p :: ps, acc, h => by
    rw [List.foldl_cons]
    refine collect_fold_nodup lower ps _ ?_
    by_cases h1 : occurs p.1 lower
    · rw [if_pos h1]
      by_cases h2 : p.2 ∈ acc
      · rw [if_pos h2]; exact h
      · rw [if_neg h2, List.nodup_append]
        exact ⟨h, List.nodup_singleton _,
          fun a ha hb => h2 (List.mem_singleton.mp hb ▸ ha)⟩
    · rw [if_neg h1]; exact h

theorem collect_fold_mem (lower : Str) : ∀ (ps : List (Str × Str)) (acc : List Str)
    (t : Str),
    t ∈ ps.foldl
      (fun acc pt =>
        if occurs pt.1 lower then (if pt.2 ∈ acc then acc else acc ++ [pt.2]) else acc)
      acc →
    t ∈ acc ∨ ∃ p ∈ ps, t = p.2
  | [], acc, t, h => Or.inl h
  | p :: ps, acc, t, h => by
    rw [List.foldl_cons] at h
    rcases collect_fold_mem lower ps _ t h with h1 | ⟨q, hq, ht⟩
    · by_cases h2 : occurs p.1 lower
      · rw [if_pos h2] at h1
        by_cases h3 : p.2 ∈ acc
        · rw [if_pos h3] at h1; exact Or.inl h1
        · rw [if_neg h3] at h1
          rcases List.mem_append.mp h1 with h4 | h5
          · exact Or.inl h4
          · exact Or.inr ⟨p, List.mem_cons_self _ _, List.mem_singleton.mp h5⟩
      · rw [if_neg h2] at h1; exact Or.inl h1
    · exact Or.inr ⟨q, List.mem_cons_of_mem _ hq, ht⟩

/-- C4: tag extraction collects canonical lexicon tags as a set, sorts
them lexicographically and truncates to at most 5 after sorting, and is
a pure function of the content; the 8-match demo document yields exactly
the 5 lexicographically smallest of its 8 distinct tags. -/
theorem C4_tag_extraction (content : Str) :
    List.Sorted (fun a b : Str => a ≤ b) (extract_enhanced_tags_from_content content) ∧
    (extract_enhanced_tags_from_content content).Nodup ∧
    (extract_enhanced_tags_from_content content).length ≤ 5 ∧
    (∀ t ∈ extract_enhanced_tags_from_content content, ∃ p ∈ tagLexicon, t = p.2) ∧
    (collectTags (toLowerStr tagDemoContent)).length = 8 ∧
    extract_enhanced_tags_from_content tagDemoContent =
      [str "angular", str "express", str "fastapi", str "flask", str "rails"] := by
  refine ⟨?_, ?_, ?_, ?_, by decide, by decide⟩
  · exact List.Pairwise.sublist (List.take_sublist _ _)
      (List.sorted_insertionSort _ _)
  · refine List.Nodup.sublist (List.take_sublist _ _) ?_
    refine ((List.perm_insertionSort _ _).nodup_iff).mpr ?_
    exact collect_fold_nodup _ tagLexicon [] List.nodup_nil
  · exact List.length_take_le _ _
  · intro t ht
    have h1 : t ∈ List.insertionSort (fun a b : Str => a ≤ b)
        (collectTags (toLowerStr content)) :=
      (List.take_sublist _ _).subset ht
    have h2 : t ∈ collectTags (toLowerStr content) :=
      (List.perm_insertionSort _ _).subset h1
    rcases collect_fold_mem _ tagLexicon [] t h2 with h3 | h4
    · exact absurd h3 (List.not_mem_nil t)
    · exact h4

/-- Witness for C4: the membership conjunct instantiated at the first
extracted tag of the demo document. -/
theorem C4_witness : ∃ p ∈ tagLexicon, str "angular" = p.2 :=
  (C4_tag_extraction tagDemoContent).2.2.2.1 (str "angular") (by decide)

/-! ## Replacement proofs -/

theorem replaceAllGo_fuel (pat rep : Str) : ∀ f : Nat, ∀ s : Str, s.length ≤ f →
    replaceAllGo pat rep f s = replaceAllGo pat rep s.length s := by
  intro f
  induction f using Nat.strong_induction_on with
  | _ f ih =>
    intro s hs
    cases s with
    | nil =>
      cases f with
      | zero => rfl
      | succ f2 => simp [replaceAllGo]
    | cons c rest =>
      cases f with
      | zero => simp at hs
      | succ f2 =>
        have hrest : rest.length ≤ f2 := by simpa using hs
        show replaceAllGo pat rep (f2 + 1) (c :: rest) =
          replaceAllGo pat rep (rest.length + 1) (c :: rest)
        rw [replaceAllGo, replaceAllGo]
        by_cases hp : pat ≠ [] ∧ pat.isPrefixOf (c :: rest)
        · rw [if_pos hp, if_pos hp]
          have hplen : 1 ≤ pat.length := by
            cases pat with
            | nil => exact absurd rfl hp.1
            | cons _ _ => simp
          have hdlen : ((c :: rest).drop pat.length).length ≤ rest.length := by
            rw [List.length_drop]
            simp only [List.length_cons]
            omega
          rw [ih f2 (Nat.lt_succ_self f2) _ (le_trans hdlen hrest),
            ih rest.length (by omega) _ hdlen]
        · rw [if_neg hp, if_neg hp,
            ih f2 (Nat.lt_succ_self f2) rest hrest]

theorem replaceAll_no (pat rep : Str) : ∀ s : Str, occurs pat s = false →
    replaceAll pat rep s = s
  | [], _ => rfl
  | c :: rest, h => by
    have hparts := occurs_cons_false h
    show replaceAllGo pat rep (rest.length + 1) (c :: rest) = c :: rest
    rw [replaceAllGo, if_neg (fun hc => absurd hc.2 (by simp [hparts.1]))]
    rw [show replaceAllGo pat rep rest.length rest = replaceAll pat rep rest from rfl,
      replaceAll_no pat rep rest hparts.2]

theorem replaceAll_head (pat rep v : Str) (hne : pat ≠ []) :
    replaceAll pat rep (pat ++ v) = rep ++ replaceAll pat rep v := by
  cases pat with
  | nil => exact absurd rfl hne
  | cons p0 pat2 =>
    show replaceAllGo (p0 :: pat2) rep ((p0 :: pat2) ++ v).length ((p0 :: pat2) ++ v) = _
    have hlen : ((p0 :: pat2) ++ v).length = (pat2 ++ v).length + 1 := by simp
    rw [hlen]
    show replaceAllGo (p0 :: pat2) rep ((pat2 ++ v).length + 1) (p0 :: (pat2 ++ v)) = _
    rw [replaceAllGo,
      if_pos ⟨List.cons_ne_nil _ _, List.isPrefixOf_iff_prefix.mpr ⟨v, rfl⟩⟩]
    have hdrop : (p0 :: (pat2 ++ v)).drop (p0 :: pat2).length = v := by
      rw [show p0 :: (pat2 ++ v) = (p0 :: pat2) ++ v from rfl, List.drop_left]
    rw [hdrop,
      replaceAllGo_fuel (p0 :: pat2) rep (pat2 ++ v).length v
        (by rw [List.length_append]; omega)]
    rfl

theorem replaceAll_skip (pat rep : Str) : ∀ u v : Str,
    (∀ k, k < u.length → pat.isPrefixOf ((u ++ v).drop k) = false) →
    replaceAll pat rep (u ++ v) = u ++ replaceAll pat rep v
  | [], v, _ => by simp
  | c :: u2, v, h => by
    have h0 := h 0 (by simp)
    rw [List.drop_zero] at h0
    have hniff : ¬(pat ≠ [] ∧ pat.isPrefixOf (c :: (u2 ++ v)) = true) := by
      rintro ⟨-, hc2⟩
      have hc3 : pat.isPrefixOf ((c :: u2) ++ v) = true := hc2
      rw [hc3] at h0
      exact Bool.noConfusion h0
    show replaceAllGo pat rep (c :: (u2 ++ v)).length (c :: (u2 ++ v)) = _
    rw [show (c :: (u2 ++ v)).length = (u2 ++ v).length + 1 from rfl, replaceAllGo,
      if_neg hniff]
    rw [show replaceAllGo pat rep (u2 ++ v).length (u2 ++ v) =
      replaceAll pat rep (u2 ++ v) from rfl]
    rw [replaceAll_skip pat rep u2 v (fun k hk => by
      have h2 := h (k + 1) (by simpa using Nat.succ_lt_succ hk)
      simpa using h2)]
    rfl

theorem isPre_drop_indep {pat u : Str} (v : Str) {k : Nat} (hk : k < u.length)
    (h : pat.isPrefixOf ((u ++ pat).drop k) = false) :
    pat.isPrefixOf ((u ++ (pat ++ v)).drop k) = false := by
  by_contra hcon
  rw [Bool.not_eq_false] at hcon
  have hd1 : (u ++ (pat ++ v)).drop k = u.drop k ++ (pat ++ v) := by
    rw [List.drop_append_eq_append_drop, show k - u.length = 0 from by omega,
      List.drop_zero]
  have hd2 : (u ++ pat).drop k = u.drop k ++ pat := by
    rw [List.drop_append_eq_append_drop, show k - u.length = 0 from by omega,
      List.drop_zero]
  rw [hd1] at hcon
  have hw : u.drop k ≠ [] := by
    intro hnil
    have hlen := congrArg List.length hnil
    rw [List.length_drop] at hlen
    simp at hlen
    omega
  have hwin : pat <+: (u.drop k ++ pat) := by
    refine isPre_window hw ?_ (List.isPrefixOf_iff_prefix.mp hcon)
    rw [List.take_append_of_le_length (by omega)]
  rw [hd2] at h
  rw [List.isPrefixOf_iff_prefix.mpr hwin] at h
  exact Bool.noConfusion h

theorem replaceAll_concrete_head (pat rep u v : Str) (hne : pat ≠ [])
    (hcheck : ∀ k, k < u.length → pat.isPrefixOf ((u ++ pat).drop k) = false)
    (hv : occurs pat v = false) :
    replaceAll pat rep (u ++ (pat ++ v)) = u ++ (rep ++ v) := by
  rw [replaceAll_skip pat rep u (pat ++ v)
    (fun k hk => isPre_drop_indep v hk (hcheck k hk))]
  rw [replaceAll_head pat rep v hne, replaceAll_no pat rep v hv]

/-! ## Chunk header rewrite proofs -/

theorem chunksToken_ne_nil (i n : Nat) : chunksToken i n ≠ [] := by
  intro h
  have hlen := congrArg List.length h
  rw [chunksToken, List.length_append, show (str "CHUNKS:").length = 7 from by decide]
    at hlen
  simp at hlen

theorem chunks_head_isPre (i n : Nat) : str "CHUNKS:" <+: chunksToken i n :=
  ⟨natChars i ++ '/' :: natChars n, rfl⟩

theorem hcheck_chunksToken (i n : Nat) (u : Str)
    (hc : ∀ k, k < u.length →
      (str "CHUNKS:").isPrefixOf ((u ++ str "CHUNKS:").drop k) = false) :
    ∀ k, k < u.length →
      (chunksToken i n).isPrefixOf ((u ++ chunksToken i n).drop k) = false := by
  intro k hk
  by_contra hcon
  rw [Bool.not_eq_false] at hcon
  have h1 : str "CHUNKS:" <+: ((u ++ chunksToken i n).drop k) :=
    (chunks_head_isPre i n).trans (List.isPrefixOf_iff_prefix.mp hcon)
  have hd1 : (u ++ chunksToken i n).drop k =
      u.drop k ++ (str "CHUNKS:" ++ (natChars i ++ '/' :: natChars n)) := by
    rw [List.drop_append_eq_append_drop, show k - u.length = 0 from by omega,
      List.drop_zero, chunksToken]
  have hd2 : (u ++ str "CHUNKS:").drop k = u.drop k ++ str "CHUNKS:" := by
    rw [List.drop_append_eq_append_drop, show k - u.length = 0 from by omega,
      List.drop_zero]
  have hw : u.drop k ≠ [] := by
    intro hnil
    have hlen := congrArg List.length hnil
    rw [List.length_drop] at hlen
    simp at hlen
    omega
  have h2 : str "CHUNKS:" <+: (u.drop k ++ str "CHUNKS:") := by
    refine isPre_window hw ?_ (hd1 ▸ h1)
    rw [List.take_append_of_le_length (by decide)]
  have h3 := hc k hk
  rw [hd2, List.isPrefixOf_iff_prefix.mpr h2] at h3
  exact Bool.noConfusion h3

/-- C6 (amended): the chunk splitter does not give every chunk a VRD
header; only a chunk whose slice starts with the VRD header has its
CHUNKS:1/1 token rewritten to CHUNKS:i/n (with the NEXT suffix exactly
when i is less than n, and the header still leading the chunk), and any
slice containing no CHUNKS token at all, in particular every chunk
after the first, passes through completely unchanged. -/
theorem C6_vrd_chunk_rewrite :
    (∀ (rest : Str) (i n : Nat) (out : Str),
      occurs (chunksToken 1 1) rest = false →
      (i < n → occurs (chunksToken i n) rest = false) →
      update_vrd_chunk_header (vrdHeadPre ++ (chunksToken 1 1 ++ rest)) i n out =
        vrdHeadPre ++ (chunksToken i n ++
          ((if i < n then str "|NEXT:" ++ vrdNextName out i else []) ++ rest))) ∧
    (∀ (s : Str) (i n : Nat) (out : Str),
      occurs (chunksToken 1 1) s = false →
      (i < n → occurs (chunksToken i n) s = false) →
      update_vrd_chunk_header s i n out = s) ∧
    create_chunks vrdDemoPayload 1 true (str "compressed") =
      [str "VRD1.0|TARGET:CLAUDE|MODE:MEDIUM|CHUNKS:1/2|NEXT:compressed_chunk_2.vrd",
       str "x"] ∧
    occurs (str "CHUNKS:") (str "x") = false := by
  refine ⟨?_, ?_, by decide, by decide⟩
  · intro rest i n out h1 h2
    unfold update_vrd_chunk_header
    by_cases hlt : i < n
    · rw [if_pos hlt]
      rw [replaceAll_concrete_head (chunksToken 1 1) (chunksToken i n) vrdHeadPre rest
        (by decide) (by decide) h1]
      rw [replaceAll_concrete_head (chunksToken i n)
        (chunksToken i n ++ (str "|NEXT:" ++ vrdNextName out i)) vrdHeadPre rest
        (chunksToken_ne_nil i n)
        (hcheck_chunksToken i n vrdHeadPre (by decide)) (h2 hlt)]
      rw [if_pos hlt]
      simp [List.append_assoc]
    · rw [if_neg hlt]
      rw [replaceAll_concrete_head (chunksToken 1 1) (chunksToken i n) vrdHeadPre rest
        (by decide) (by decide) h1]
      rw [if_neg hlt]
      simp
  · intro s i n out h1 h2
    unfold update_vrd_chunk_header
    by_cases hlt : i < n
    · rw [if_pos hlt, replaceAll_no _ _ s h1, replaceAll_no _ _ s (h2 hlt)]
    · rw [if_neg hlt, replaceAll_no _ _ s h1]

/-- Witness for C6: the no-op conjunct on a headerless slice and the
rewrite conjunct on an empty body. -/
theorem C6_witness :
    update_vrd_chunk_header (str "hello world") 2 2 (str "compressed") =
      str "hello world" ∧
    update_vrd_chunk_header (vrdHeadPre ++ (chunksToken 1 1 ++ [])) 3 3
        (str "compressed") =
      vrdHeadPre ++ (chunksToken 3 3 ++ ((if 3 < 3 then str "|NEXT:" ++
        vrdNextName (str "compressed") 3 else []) ++ [])) :=
  ⟨C6_vrd_chunk_rewrite.2.1 (str "hello world") 2 2 (str "compressed") (by decide)
      (fun h => absurd h (by decide)),
   C6_vrd_chunk_rewrite.1 [] 3 3 (str "compressed") (by decide)
      (fun h => absurd h (by decide))⟩

/-- C6 counterexample: splitting the demo VRD payload into two chunks
leaves the second chunk without any CHUNKS token, refuting the claim
that every chunk of the split has the rewritten VRD header as its first
line. -/
theorem C6_counterexample :
    create_chunks vrdDemoPayload 1 true (str "compressed") =
      [str "VRD1.0|TARGET:CLAUDE|MODE:MEDIUM|CHUNKS:1/2|NEXT:compressed_chunk_2.vrd",
       str "x"] ∧
    occurs (chunksToken 2 2) (str "x") = false := by
  constructor
  · decide
  · decide

/-! ## Occurrence decomposition lemmas -/

theorem occurs_mid (pat : Str) : ∀ u v : Str, occurs pat (u ++ (pat ++ v)) = true
  | [], v => occurs_of_isPre (List.isPrefixOf_iff_prefix.mpr ⟨v, rfl⟩)
  | c :: u2, v => by
    show occurs pat (c :: (u2 ++ (pat ++ v))) = true
    rw [occurs, occurs_mid pat u2 v, Bool.or_true]

theorem mem_of_occurs {pat : Str} {c : Char} (hc : c ∈ pat) : ∀ s : Str,
    occurs pat s = true → c ∈ s
  | [], h => by
    cases pat with
    | nil => exact absurd hc (List.not_mem_nil c)
    | cons p pat2 => simp [occurs, List.isPrefixOf] at h
  | d :: rest, h => by
    rw [occurs] at h
    rcases Bool.or_eq_true_iff.mp h with h1 | h2
    · exact (List.isPrefixOf_iff_prefix.mp h1).subset hc
    · exact List.mem_cons_of_mem _ (mem_of_occurs hc rest h2)

theorem isPre_append_char (x : Char) : ∀ (pat : Str), x ∉ pat → ∀ w v : Str,
    pat.isPrefixOf (w ++ x :: v) = pat.isPrefixOf w
  | [], _, w, v => by simp [List.isPrefixOf]
  | p :: pat2, hx, [], v => by
    have hpx : (p == x) = false := by
      refine beq_eq_false_iff_ne.mpr (fun h => hx ?_)
      exact h ▸ List.mem_cons_self _ _
    simp [List.isPrefixOf, hpx]
  | p :: pat2, hx, c :: w2, v => by
    show (p :: pat2).isPrefixOf (c :: (w2 ++ x :: v)) = (p :: pat2).isPrefixOf (c :: w2)
    simp only [List.isPrefixOf]
    rw [isPre_append_char x pat2 (fun h => hx (List.mem_cons_of_mem _ h)) w2 v]

theorem occurs_append_char (x : Char) (pat : Str) (hx : x ∉ pat) (hne : pat ≠ []) :
    ∀ u v : Str, occurs pat (u ++ x :: v) = (occurs pat u || occurs pat v)
  | [], v => by
    cases pat with
    | nil => exact absurd rfl hne
    | cons p pat2 =>
      have hpx : (p == x) = false := by
        refine beq_eq_false_iff_ne.mpr (fun h => hx ?_)
        exact h ▸ List.mem_cons_self _ _
      show occurs (p :: pat2) (x :: v) = (occurs (p :: pat2) [] || occurs (p :: pat2) v)
      rw [occurs]
      simp [occurs, List.isPrefixOf, hpx]
  | c :: u2, v => by
    show occurs pat (c :: (u2 ++ x :: v)) = _
    rw [occurs, occurs_append_char x pat hx hne u2 v, occurs]
    have hpre : pat.isPrefixOf (c :: (u2 ++ x :: v)) = pat.isPrefixOf (c :: u2) :=
      isPre_append_char x pat hx (c :: u2) v
    rw [hpre, Bool.or_assoc]

theorem occurs_joinNl (pat : Str) (hnl : '\n' ∉ pat) (hne : pat ≠ []) :
    ∀ L : List Str, occurs pat (joinNl L) = L.any (fun l => occurs pat l)
  | [] => by
    cases pat with
    | nil => exact absurd rfl hne
    | cons p pat2 => simp [joinNl, occurs, List.isPrefixOf]
  | [l] => by simp [joinNl]
  | l :: l2 :: rest => by
    show occurs pat (l ++ '\n' :: joinNl (l2 :: rest)) = _
    rw [occurs_append_char '\n' pat hnl hne l (joinNl (l2 :: rest)),
      occurs_joinNl pat hnl hne (l2 :: rest)]
    simp [Bool.or_assoc]

theorem mem_natCharsAux : ∀ (f n : Nat) (acc : Str) (c : Char),
    c ∈ natCharsAux f n acc → c ∈ acc ∨ (48 ≤ c.toNat ∧ c.toNat ≤ 57)
  | 0, _, _, _, h => Or.inl h
  | _ + 1, 0, _, _, h => Or.inl h
  | f + 1, n + 1, acc, c, h => by
    rw [show natCharsAux (f + 1) (n + 1) acc =
      natCharsAux f ((n + 1) / 10) (Char.ofNat (48 + (n + 1) % 10) :: acc) from rfl] at h
    rcases mem_natCharsAux f ((n + 1) / 10) _ c h with h1 | h2
    · rcases List.mem_cons.mp h1 with h3 | h4
      · right
        subst h3
        have hr : (n + 1) % 10 < 10 := Nat.mod_lt _ (by norm_num)
        interval_cases h5 : (n + 1) % 10 <;> exact (by decide)
      · exact Or.inl h4
    · exact Or.inr h2

theorem mem_natChars {n : Nat} {c : Char} (h : c ∈ natChars n) :
    48 ≤ c.toNat ∧ c.toNat ≤ 57 := by
  rw [natChars] at h
  split at h
  · obtain rfl := List.mem_singleton.mp h
    exact (by decide)
  · rcases mem_natCharsAux n n [] c h with h1 | h2
    · exact absurd h1 (List.not_mem_nil c)
    · exact h2

theorem occurs_of_eq_mid {pat s : Str} (u v : Str) (h : s = u ++ (pat ++ v)) :
    occurs pat s = true := h ▸ occurs_mid pat u v

theorem occurs_next_false_of_no_X (s : Str) (hX : 'X' ∉ s) :
    occurs (str "NEXT:") s = false := by
  by_contra h
  rw [Bool.not_eq_false] at h
  exact hX (mem_of_occurs (by decide) s h)

theorem no_X_natChars (n : Nat) : 'X' ∉ natChars n := by
  intro h
  have := mem_natChars h
  have hx : ('X').toNat = 88 := by decide
  omega

theorem mdChunkContent_has_next (L : List Str) (j n : Nat) (out : Str)
    (h : j + 1 < n) :
    occurs (str " | NEXT:" ++ mdNextName out j) (mdChunkContent L j n out) = true := by
  rw [mdChunkContent, if_pos h]
  exact occurs_of_eq_mid (str "CHUNK:" ++ (natChars (j + 1) ++ '/' :: natChars n))
    ('\n' :: joinNl L ++ (str "\n---\nCHUNK_END | Lines:" ++ (natChars L.length ++
      (str " | Est.tokens:" ++ natChars (utf8Len
        (str "CHUNK:" ++ (natChars (j + 1) ++ '/' :: natChars n) ++
          (str " | NEXT:" ++ mdNextName out j) ++ '\n' :: joinNl L) / 4)))))
    (by simp [List.append_assoc])

theorem mdChunkContent_no_next (L : List Str) (j n : Nat) (out : Str)
    (h : ¬(j + 1 < n)) (hL : ∀ l ∈ L, occurs (str "NEXT:") l = false) :
    occurs (str "NEXT:") (mdChunkContent L j n out) = false := by
  have hne : str "NEXT:" ≠ ([] : Str) := by decide
  have hnl : '\n' ∉ str "NEXT:" := by decide
  have hsh : mdChunkContent L j n out =
      (str "CHUNK:" ++ (natChars (j + 1) ++ '/' :: natChars n)) ++ '\n' ::
        (joinNl L ++ '\n' :: (str "---" ++ '\n' ::
          (str "CHUNK_END | Lines:" ++ (natChars L.length ++
            (str " | Est.tokens:" ++ natChars (utf8Len
              (str "CHUNK:" ++ (natChars (j + 1) ++ '/' :: natChars n) ++ [] ++
                '\n' :: joinNl L) / 4)))))) := by
    rw [mdChunkContent, if_neg h]
    simp only [List.append_assoc, List.nil_append, List.cons_append]
    rfl
  rw [hsh]
  rw [occurs_append_char '\n' _ hnl hne, occurs_append_char '\n' _ hnl hne,
    occurs_append_char '\n' _ hnl hne]
  have h1 : occurs (str "NEXT:")
      (str "CHUNK:" ++ (natChars (j + 1) ++ '/' :: natChars n)) = false := by
    refine occurs_next_false_of_no_X _ ?_
    intro hx
    rcases List.mem_append.mp hx with h2 | h3
    · exact absurd h2 (by decide)
    · rcases List.mem_append.mp h3 with h4 | h5
      · exact no_X_natChars _ h4
      · rcases List.mem_cons.mp h5 with h6 | h7
        · exact absurd h6 (by decide)
        · exact no_X_natChars _ h7
  have h2 : occurs (str "NEXT:") (joinNl L) = false := by
    rw [occurs_joinNl _ hnl hne L]
    rw [List.any_eq_false]
    exact fun l hl => by simp [hL l hl]
  have h3 : occurs (str "NEXT:") (str "---") = false := by decide
  have h4 : occurs (str "NEXT:")
      (str "CHUNK_END | Lines:" ++ (natChars L.length ++
        (str " | Est.tokens:" ++ natChars (utf8Len
          (str "CHUNK:" ++ (natChars (j + 1) ++ '/' :: natChars n) ++ [] ++
            '\n' :: joinNl L) / 4)))) = false := by
    refine occurs_next_false_of_no_X _ ?_
    intro hx
    rcases List.mem_append.mp hx with h5 | h6
    · exact absurd h5 (by decide)
    · rcases List.mem_append.mp h6 with h7 | h8
      · exact no_X_natChars _ h7
      · rcases List.mem_append.mp h8 with h9 | h10
        · exact absurd h9 (by decide)
        · exact no_X_natChars _ h10
  rw [h1, h2, h3, h4]
  rfl

/-- C8: splitting a 1700-line markdown payload with a line budget of 800
yields exactly three chunks built from the 800-, 800- and 100-line slices;
each of the first two chunk payloads contains the " | NEXT:<next filename>"
reference to the following chunk, and the last chunk payload contains no
"NEXT:" reference at all (provided the input lines themselves contain none). -/
theorem C8_md_chunking (lines : List Str) (out : Str)
    (hlen : lines.length = 1700)
    (hl : ∀ l ∈ lines, l ≠ [] ∧ '\n' ∉ l ∧ '\r' ∉ l ∧
      occurs (str "NEXT:") l = false) :
    create_chunks (joinNl lines) 800 false out =
      [mdChunkContent (lines.take 800) 0 3 out,
       mdChunkContent ((lines.drop 800).take 800) 1 3 out,
       mdChunkContent ((lines.drop 1600).take 800) 2 3 out] ∧
    (lines.take 800).length = 800 ∧
    ((lines.drop 800).take 800).length = 800 ∧
    ((lines.drop 1600).take 800).length = 100 ∧
    occurs (str " | NEXT:" ++ mdNextName out 0)
      (mdChunkContent (lines.take 800) 0 3 out) = true ∧
    occurs (str " | NEXT:" ++ mdNextName out 1)
      (mdChunkContent ((lines.drop 800).take 800) 1 3 out) = true ∧
    occurs (str "NEXT:")
      (mdChunkContent ((lines.drop 1600).take 800) 2 3 out) = false := by
  have hL : rustLines (joinNl lines) = lines :=
    rustLines_joinNl lines (fun l hm => ⟨(hl l hm).1, (hl l hm).2.1, (hl l hm).2.2.1⟩)
  refine ⟨?_, ?_, ?_, ?_, ?_, ?_, ?_⟩
  · rw [create_chunks]
    simp only [hL, hlen]
    norm_num
    rw [show List.range 3 = [0, 1, 2] from by decide]
    simp only [List.map_cons, List.map_nil]
    norm_num [List.drop_zero]
  · rw [List.length_take, hlen]
    decide
  · rw [List.length_take, List.length_drop, hlen]
    decide
  · rw [List.length_take, List.length_drop, hlen]
    decide
  · exact mdChunkContent_has_next _ 0 3 out (by norm_num)
  · exact mdChunkContent_has_next _ 1 3 out (by norm_num)
  · refine mdChunkContent_no_next _ 2 3 out (by norm_num) ?_
    intro l hm
    exact (hl l (List.drop_subset _ _ (List.take_subset _ _ hm))).2.2.2

theorem C8_witness :
    ((List.replicate 1700 (str "x")).length = 1700) ∧
    (∀ l ∈ List.replicate 1700 (str "x"), l ≠ [] ∧ '\n' ∉ l ∧ '\r' ∉ l ∧
      occurs (str "NEXT:") l = false) ∧
    (create_chunks (joinNl (List.replicate 1700 (str "x"))) 800 false (str "out") =
      [mdChunkContent ((List.replicate 1700 (str "x")).take 800) 0 3 (str "out"),
       mdChunkContent (((List.replicate 1700 (str "x")).drop 800).take 800) 1 3 (str "out"),
       mdChunkContent (((List.replicate 1700 (str "x")).drop 1600).take 800) 2 3 (str "out")] ∧
    ((List.replicate 1700 (str "x")).take 800).length = 800 ∧
    (((List.replicate 1700 (str "x")).drop 800).take 800).length = 800 ∧
    (((List.replicate 1700 (str "x")).drop 1600).take 800).length = 100 ∧
    occurs (str " | NEXT:" ++ mdNextName (str "out") 0)
      (mdChunkContent ((List.replicate 1700 (str "x")).take 800) 0 3 (str "out")) = true ∧
    occurs (str " | NEXT:" ++ mdNextName (str "out") 1)
      (mdChunkContent (((List.replicate 1700 (str "x")).drop 800).take 800) 1 3 (str "out")) = true ∧
    occurs (str "NEXT:")
      (mdChunkContent (((List.replicate 1700 (str "x")).drop 1600).take 800) 2 3 (str "out")) = false) := by
  have h1 : (List.replicate 1700 (str "x")).length = 1700 := by
    rw [List.length_replicate]
  have h2 : ∀ l ∈ List.replicate 1700 (str "x"), l ≠ [] ∧ '\n' ∉ l ∧ '\r' ∉ l ∧
      occurs (str "NEXT:") l = false := by
    intro l hm
    rw [List.eq_of_mem_replicate hm]
    exact ⟨by decide, by decide, by decide, by decide⟩
  exact ⟨h1, h2, C8_md_chunking (List.replicate 1700 (str "x")) (str "out") h1 h2⟩


set_option maxRecDepth 40000 in
/-- C2 counterexample to the original claim: the final emitted payload of
that run is 308 bytes, whose quarter is 77, yet the substituted value is
not tokens:77 — the token estimate does not equal the byte length of the
final payload divided by 4. -/
theorem C2_counterexample :
    utf8Len (generate_vrd_content [] (str "gpt") (str "high") true vrdNow0) = 308 ∧
    308 / 4 = 77 ∧
    occurs (str "tokens:77")
      (generate_vrd_content [] (str "gpt") (str "high") true vrdNow0) = false :=
  ⟨rfl, rfl, rfl⟩

/-- C9: when the requested output format is neither md nor vrd, the
content assembly aborts with the unsupported-format report (the source
prints the message and signals exit code 1 to the caller) and no output
payload is produced. -/
theorem C9_unsupported_format (files : List (Str × Str × Str))
    (format model level : Str) (ai_mode no_emojis : Bool) (now : Str)
    (h1 : format ≠ str "vrd") (h2 : format ≠ str "md") :
    compress_all_content files format model level ai_mode no_emojis now =
      Except.error (str "Unsupported format: " ++ format) := by
  rw [compress_all_content, if_neg h1, if_neg h2]

theorem C9_witness :
    (str "json" ≠ str "vrd") ∧ (str "json" ≠ str "md") ∧
    compress_all_content [(str "a.md", str "# T\nbody", vrdNow0)]
      (str "json") (str "claude") (str "medium") false true vrdNow0 =
      Except.error (str "Unsupported format: " ++ str "json") :=
  ⟨by decide, by decide,
   C9_unsupported_format [(str "a.md", str "# T\nbody", vrdNow0)]
     (str "json") (str "claude") (str "medium") false true vrdNow0
     (by decide) (by decide)⟩

/-! ## VRD metadata substitution proofs -/

/-- Char.toUpper never yields a lowercase letter, in particular never the
letter f that the metadata placeholder contains. -/
theorem toUpper_ne_f (d : Char) : Char.toUpper d ≠ 'f' := by
  intro h
  simp only [Char.toUpper] at h
  by_cases hl : d.toNat ≥ 97 ∧ d.toNat ≤ 122
  · rw [if_pos hl] at h
    obtain ⟨h1, h2⟩ := hl
    interval_cases hn : d.toNat <;> exact absurd h (by decide)
  · rw [if_neg hl] at h
    subst h
    exact hl (by decide)

theorem f_not_mem_toUpperStr (s : Str) : 'f' ∉ toUpperStr s := by
  intro h
  rw [toUpperStr] at h
  obtain ⟨d, _, hd⟩ := List.mem_map.mp h
  exact toUpper_ne_f d hd

/-- Window refutation for a text block that ends in a newline: a pattern
free of newlines and containing a character the block lacks cannot match
at any position of the block, whatever follows the block. -/
theorem hcheck_nl_tail {pat : Str} (hnl : '\n' ∉ pat) {cf : Char} (hcf : cf ∈ pat)
    (u0 : Str) (hu : cf ∉ u0) :
    ∀ k, k < (u0 ++ ['\n']).length →
      pat.isPrefixOf (((u0 ++ ['\n']) ++ pat).drop k) = false := by
  intro k hk
  by_contra hcon
  rw [Bool.not_eq_false] at hcon
  have hlen : (u0 ++ ['\n']).length = u0.length + 1 := by simp
  have hd : ((u0 ++ ['\n']) ++ pat).drop k = (u0 ++ ['\n']).drop k ++ pat := by
    rw [List.drop_append_eq_append_drop,
      show k - (u0 ++ ['\n']).length = 0 from by omega, List.drop_zero]
  rw [hd] at hcon
  have hpre := List.isPrefixOf_iff_prefix.mp hcon
  have hk0 : k ≤ u0.length := by omega
  have hdu : (u0 ++ ['\n']).drop k = u0.drop k ++ ['\n'] := by
    rw [List.drop_append_eq_append_drop, show k - u0.length = 0 from by omega,
      List.drop_zero]
  have hwlen : ((u0 ++ ['\n']).drop k).length = u0.length + 1 - k := by
    rw [List.length_drop, hlen]
  rcases Nat.lt_or_ge pat.length ((u0 ++ ['\n']).drop k).length with hcase | hcase
  · have hp2 : pat <+: (u0 ++ ['\n']).drop k := by
      rw [List.prefix_iff_eq_take] at hpre ⊢
      rw [List.take_append_eq_append_take,
        show pat.length - ((u0 ++ ['\n']).drop k).length = 0 from by omega,
        List.take_zero, List.append_nil] at hpre
      exact hpre
    have hcfu : cf ∈ (u0 ++ ['\n']).drop k := hp2.subset hcf
    rw [hdu] at hcfu
    rcases List.mem_append.mp hcfu with h1 | h2
    · exact hu (List.drop_subset _ _ h1)
    · have hce : cf = '\n' := by simpa using h2
      exact hnl (hce ▸ hcf)
  · rw [List.prefix_iff_eq_take, List.take_append_eq_append_take,
      List.take_of_length_le hcase] at hpre
    have hnlu : '\n' ∈ (u0 ++ ['\n']).drop k := by
      rw [hdu]
      exact List.mem_append_right _ (by simp)
    have : '\n' ∈ pat := by
      rw [hpre]
      exact List.mem_append_left _ hnlu
    exact hnl this

/-- The VRD header frame contains no letter f: its literal pieces carry
none and the uppercased model and level fields cannot produce one. -/
theorem f_not_mem_frame (model level : Str) : 'f' ∉ vrdFrameHead model level := by
  intro h
  rw [vrdFrameHead] at h
  simp only [List.mem_append] at h
  rcases h with ((((h1 | h2) | h3) | h4) | h5)
  · exact absurd h1 (by decide)
  · exact f_not_mem_toUpperStr model h2
  · exact absurd h3 (by decide)
  · exact f_not_mem_toUpperStr level h4
  · exact absurd h5 (by decide)

theorem occurs_placeholder_frame (model level : Str) :
    occurs vrdPlaceholder (vrdFrameHead model level) = false := by
  by_contra h
  rw [Bool.not_eq_false] at h
  exact f_not_mem_frame model level
    (mem_of_occurs (show 'f' ∈ vrdPlaceholder from by decide) _ h)

/-- build_vrd_output splits into the header frame, a newline, the literal
placeholder, and the newline-separated dictionary, separator and body. -/
theorem build_decomp (files : List (Str × Str × Str)) (model level : Str) (ne : Bool) :
    build_vrd_output (vrdProcessed files level ne) model level =
      (vrdFrameHead model level ++ ['\n']) ++
        (vrdPlaceholder ++ ('\n' :: (vrdDictLine ++ '\n' ::
          (str "---" ++ '\n' :: vrdBody files level ne)))) := by
  simp only [build_vrd_output, vrdFrameHead, vrdDictLine, vrdPlaceholder, vrdBody,
    List.append_assoc, List.cons_append, List.singleton_append]
  rfl

/-- C2 (amended): for every corpus, model, level and timestamp, the VRD
payload is the fixed frame around the file sections with the literal
placeholder replaced by the computed metadata text, whose files value is
the corpus size and whose tokens value is the byte length of the payload
BEFORE placeholder substitution divided by 4 (not the final byte length);
the percentage is likewise computed from the pre-substitution length and
is exactly zero when the corpus bytes sum to zero (off that branch the
source's f64 rendering is not modelled, so the theorem leaves the value
existential).  The placeholder occurs nowhere in the final payload
provided it occurs neither in the assembled file sections nor in the
substituted metadata text itself — the hypotheses hold of every concrete
run checked and fail only in contrived cases such as the generation
timestamp reading exactly the placeholder timestamp. -/
theorem C2_vrd_metadata (files : List (Str × Str × Str)) (model level now : Str)
    (ne : Bool)
    (hbody : occurs vrdPlaceholder (vrdBody files level ne) = false)
    (hsub : occurs vrdPlaceholder
      (metaSubst (vrdComputedMeta files model level ne now)) = false) :
    ∃ t : Int,
      generate_vrd_content files model level ne now =
        (vrdFrameHead model level ++ ['\n']) ++
          (metaSubst
            { files_count := files.length
              estimated_tokens := vrdPreBytes files model level ne / 4
              compression_tenths := t
              generated := now } ++
            ('\n' :: (vrdDictLine ++ '\n' ::
              (str "---" ++ '\n' :: vrdBody files level ne)))) ∧
      (vrdOrigBytes files = 0 → t = 0) ∧
      occurs vrdPlaceholder (generate_vrd_content files model level ne now) = false := by
  have hnl : '\n' ∉ vrdPlaceholder := by decide
  have hne : vrdPlaceholder ≠ [] := by decide
  have hcf : 'f' ∈ vrdPlaceholder := by decide
  have hv2 : occurs vrdPlaceholder (vrdDictLine ++ '\n' ::
      (str "---" ++ '\n' :: vrdBody files level ne)) = false := by
    rw [occurs_append_char '\n' vrdPlaceholder hnl hne vrdDictLine _,
      occurs_append_char '\n' vrdPlaceholder hnl hne (str "---") _]
    rw [hbody, show occurs vrdPlaceholder vrdDictLine = false from by decide,
      show occurs vrdPlaceholder (str "---") = false from by decide]
    rfl
  have hv : occurs vrdPlaceholder ('\n' :: (vrdDictLine ++ '\n' ::
      (str "---" ++ '\n' :: vrdBody files level ne))) = false := by
    show (vrdPlaceholder.isPrefixOf ('\n' :: (vrdDictLine ++ '\n' ::
        (str "---" ++ '\n' :: vrdBody files level ne))) ||
      occurs vrdPlaceholder (vrdDictLine ++ '\n' ::
        (str "---" ++ '\n' :: vrdBody files level ne))) = false
    rw [hv2, show vrdPlaceholder.isPrefixOf ('\n' :: (vrdDictLine ++ '\n' ::
      (str "---" ++ '\n' :: vrdBody files level ne))) = false from rfl]
    rfl
  have heq : generate_vrd_content files model level ne now =
      (vrdFrameHead model level ++ ['\n']) ++
        (metaSubst (vrdComputedMeta files model level ne now) ++
          ('\n' :: (vrdDictLine ++ '\n' ::
            (str "---" ++ '\n' :: vrdBody files level ne)))) := by
    show update_vrd_metadata
        (build_vrd_output (vrdProcessed files level ne) model level)
        (vrdComputedMeta files model level ne now) = _
    rw [update_vrd_metadata, build_decomp files model level ne]
    exact replaceAll_concrete_head vrdPlaceholder
      (metaSubst (vrdComputedMeta files model level ne now))
      (vrdFrameHead model level ++ ['\n'])
      ('\n' :: (vrdDictLine ++ '\n' :: (str "---" ++ '\n' :: vrdBody files level ne)))
      hne
      (hcheck_nl_tail hnl hcf (vrdFrameHead model level) (f_not_mem_frame model level))
      hv
  refine ⟨compressionTenths (vrdOrigBytes files) (vrdPreBytes files model level ne),
    heq, ?_, ?_⟩
  · intro h0
    rw [compressionTenths, if_pos h0]
  · rw [heq, List.append_assoc,
      show (['\n'] : Str) ++ (metaSubst (vrdComputedMeta files model level ne now) ++
          ('\n' :: (vrdDictLine ++ '\n' ::
            (str "---" ++ '\n' :: vrdBody files level ne)))) =
        '\n' :: (metaSubst (vrdComputedMeta files model level ne now) ++
          ('\n' :: (vrdDictLine ++ '\n' ::
            (str "---" ++ '\n' :: vrdBody files level ne)))) from rfl]
    rw [occurs_append_char '\n' vrdPlaceholder hnl hne (vrdFrameHead model level) _,
      occurs_placeholder_frame model level,
      occurs_append_char '\n' vrdPlaceholder hnl hne
        (metaSubst (vrdComputedMeta files model level ne now)) _,
      hsub, hv2]
    rfl

set_option maxRecDepth 40000 in
theorem C2_witness :
    occurs vrdPlaceholder (vrdBody c2files (str "medium") true) = false ∧
    occurs vrdPlaceholder
      (metaSubst (vrdComputedMeta c2files (str "gpt") (str "medium") true vrdNow0)) = false ∧
    (∃ t : Int,
      generate_vrd_content c2files (str "gpt") (str "medium") true vrdNow0 =
        (vrdFrameHead (str "gpt") (str "medium") ++ ['\n']) ++
          (metaSubst
            { files_count := c2files.length
              estimated_tokens := vrdPreBytes c2files (str "gpt") (str "medium") true / 4
              compression_tenths := t
              generated := vrdNow0 } ++
            ('\n' :: (vrdDictLine ++ '\n' ::
              (str "---" ++ '\n' :: vrdBody c2files (str "medium") true)))) ∧
      (vrdOrigBytes c2files = 0 → t = 0) ∧
      occurs vrdPlaceholder
        (generate_vrd_content c2files (str "gpt") (str "medium") true vrdNow0) = false) :=
  ⟨by decide, by decide,
   C2_vrd_metadata c2files (str "gpt") (str "medium") vrdNow0 true
     (by decide) (by decide)⟩
